import Mathlib

set_option maxHeartbeats 1000000

/-
Shallow embedding of the rvnmemhistwriter slice/chunk aggregation engine and
its persistence pipeline.

Machine integers are modelled as Nat with explicit reduction modulo 2^64
(resp. 2^32) exactly where the C++ performs wrapping unsigned arithmetic or a
narrowing conversion.  Pointer identity of intrusively linked ChunkAccess
nodes is modelled by an arena counter (field id), as the design notes of the
project themselves suggest for languages without raw pointers.  The
std::map of chunks keyed by address_first is modelled as a list in map
iteration order; std::map::insert, which silently does nothing when the key
is already present, is modelled faithfully by mapInsert.
-/

namespace MemHist

def U64 : Nat := 18446744073709551616

def U32 : Nat := 4294967296

/-- An access node stored inside a chunk (struct ChunkAccess of chunk.h).
The C++ node also carries the intrusive next pointer; the list structure is
represented by the position of the node inside Chunk.accesses. -/
structure ChunkAccess where
  id : Nat
  transition : Nat
  address : Nat
  size : Nat
deriving DecidableEq

/-- A chunk (class Chunk of chunk.h): an address interval plus the ordered
access list (head first). -/
structure Chunk where
  address_first : Nat
  address_last : Nat
  accesses : List ChunkAccess
deriving DecidableEq

/-- Chunk constructor from a single access.  The C++ constructor takes the
size as std::uint32_t, so a wider argument is narrowed modulo 2^32, and
address_last is computed as address + size - 1 in wrapping u64 arithmetic. -/
def Chunk.mk1 (nid transition address size : Nat) : Chunk :=
  { address_first := address
    address_last := (address + size % U32 + (U64 - 1)) % U64
    accesses := [⟨nid, transition, address, size % U32⟩] }

/-- Chunk::size, the number of stored accesses. -/
def Chunk.size (c : Chunk) : Nat := c.accesses.length

/-- Chunk::overlaps.  The C++ computes address_last + 1 in u64, which wraps
to 0 when address_last = u64::MAX. -/
def Chunk.overlaps (c other : Chunk) : Bool :=
  !(decide ((c.address_last + 1) % U64 ≤ other.address_first) ||
    decide ((other.address_last + 1) % U64 ≤ c.address_first))

/-- Chunk::is_contiguous, with the same wrapping + 1. -/
def Chunk.is_contiguous (c other : Chunk) : Bool :=
  decide ((c.address_last + 1) % U64 = other.address_first) ||
  decide ((other.address_last + 1) % U64 = c.address_first)

/-- Chunk::merge_in: hull of the bounds, donor accesses appended after the
receiver tail.  (The two std::logic_error guards of the C++ protect the
intrusive tail pointers, which are well formed by construction in the value
model.) -/
def Chunk.merge_in (c other : Chunk) : Chunk :=
  { address_first := min c.address_first other.address_first
    address_last := max c.address_last other.address_last
    accesses := c.accesses ++ other.accesses }

/-- The frozen slice (class Slice of slice.h). -/
structure Slice where
  access_chunks : List Chunk
  transition_first : Nat
  transition_last : Nat
deriving DecidableEq

/-- The slice builder state (class SliceBuilder of slice.h). -/
structure SliceBuilder where
  slice : Slice
  chunk_size_touch_limit : Option Nat
  chunk_size_overlap_limit : Option Nat
  transition_limit : Option Nat
  access_count_limit : Option Nat
  stop_at_next_transition : Bool
  access_count : Nat
  next_id : Nat
deriving DecidableEq

/-- A freshly constructed builder with the given limit configuration. -/
def SliceBuilder.init (touch overlap tlim alim : Option Nat) : SliceBuilder :=
  { slice := ⟨[], 0, 0⟩
    chunk_size_touch_limit := touch
    chunk_size_overlap_limit := overlap
    transition_limit := tlim
    access_count_limit := alim
    stop_at_next_transition := false
    access_count := 0
    next_id := 0 }

/-- Outcome of SliceBuilder::insert: a returned access pointer, a nullptr
soft refusal, or a thrown std::invalid_argument. -/
inductive InsertOutcome where
  | inserted (access : ChunkAccess)
  | refused
  | invalidArg
deriving DecidableEq

/-- The wrap-around test of insert: static_cast of address - 1 + size in u64
compared with address. -/
def wrapsU64 (address size : Nat) : Bool :=
  decide ((address + size + (U64 - 1)) % U64 < address)

/-- The u64 expression icount - transition_first + 1 of the transition-limit
test, with wrapping subtraction and addition. -/
def u64SubAddOne (icount first : Nat) : Nat :=
  ((icount + U64 - first % U64) % U64 + 1) % U64

/-- The engaged-and-reached test of the access count limit. -/
def SliceBuilder.countHit (b : SliceBuilder) : Bool :=
  match b.access_count_limit with
  | some l => decide (b.access_count ≥ l)
  | none => false

/-- The engaged transition-limit refusal test. -/
def SliceBuilder.tlimitHit (b : SliceBuilder) (icount : Nat) : Bool :=
  match b.transition_limit with
  | some l =>
    decide (b.slice.access_chunks ≠ []) &&
    decide (u64SubAddOne icount b.slice.transition_first > l)
  | none => false

/-- The engaged chunk-size-overlap-limit test on the accumulated count. -/
def SliceBuilder.overlapHit (b : SliceBuilder) (total : Nat) : Bool :=
  match b.chunk_size_overlap_limit with
  | some l => decide (total > l)
  | none => false

/-- Raise the sticky stop_at_next_transition flag. -/
def SliceBuilder.setStop (b : SliceBuilder) : SliceBuilder :=
  { b with stop_at_next_transition := true }

/-- Line 152 of slice.h: when the chunk map is empty, transition_first is set
to the incoming transition (this happens before the overlap-limit check). -/
def SliceBuilder.setFirstIfEmpty (b : SliceBuilder) (icount : Nat) : SliceBuilder :=
  if b.slice.access_chunks = [] then
    { b with slice := { b.slice with transition_first := icount } }
  else b

/-- Split the map iteration order at upper_bound(address): the first
component holds the chunks with key ≤ address, the second the rest. -/
def splitAtAddr (address : Nat) : List Chunk → List Chunk × List Chunk
  | [] => ([], [])
  | c :: rest =>
    if c.address_first ≤ address then
      let r := splitAtAddr address rest
      (c :: r.1, r.2)
    else ([], c :: rest)

/-- Test the predecessor of upper_bound (the last chunk with key ≤ address)
for overlap: returns (kept chunks, the overlapping predecessor if any). -/
def splitLastCheck (ac : Chunk) : List Chunk → List Chunk × List Chunk
  | [] => ([], [])
  | [p] => if p.overlaps ac then ([], [p]) else ([p], [])
  | c :: c2 :: rest =>
    let r := splitLastCheck ac (c2 :: rest)
    (c :: r.1, r.2)

/-- Walk forward from upper_bound collecting overlapping chunks, stopping at
the first non-overlap: returns (collected run, remaining suffix). -/
def takeOverlapping (ac : Chunk) : List Chunk → List Chunk × List Chunk
  | [] => ([], [])
  | c :: rest =>
    if c.overlaps ac then
      let r := takeOverlapping ac rest
      (c :: r.1, r.2)
    else ([], c :: rest)

/-- std::map::insert keyed by address_first: insert in key order, silently
doing nothing when the key is already present (the Bool reports insertion). -/
def mapInsert (m : Chunk) : List Chunk → Bool × List Chunk
  | [] => (true, [m])
  | x :: xs =>
    if m.address_first < x.address_first then (true, m :: x :: xs)
    else if m.address_first = x.address_first then (false, x :: xs)
    else
      let r := mapInsert m xs
      (r.1, x :: r.2)

def sumSizes (l : List Chunk) : Nat := (l.map Chunk.size).sum

/-- The overlapping neighbours collected by the scan of insert: the tested
predecessor of upper_bound if it overlaps, followed by the forward run. -/
def scanOverl (ac : Chunk) (address : Nat) (chunks : List Chunk) : List Chunk :=
  (splitLastCheck ac (splitAtAddr address chunks).1).2 ++
  (takeOverlapping ac (splitAtAddr address chunks).2).1

/-- The chunks of the map that the scan of insert leaves untouched. -/
def scanKept (ac : Chunk) (address : Nat) (chunks : List Chunk) : List Chunk :=
  (splitLastCheck ac (splitAtAddr address chunks).1).1 ++
  (takeOverlapping ac (splitAtAddr address chunks).2).2

/-- The tail of a successful insertion: merge the collected overlaps into the
temporary chunk, put it back into the map, update transition_last and the
access count, and return the pointer to the new access. -/
def SliceBuilder.finishInsert (b : SliceBuilder) (acc : ChunkAccess) (ac : Chunk)
    (overl remaining : List Chunk) (icount : Nat) : InsertOutcome × SliceBuilder :=
  (.inserted acc,
   { b with
     slice := { b.slice with
                access_chunks := (mapInsert (overl.foldl Chunk.merge_in ac) remaining).2
                transition_last := icount }
     access_count := b.access_count + 1
     next_id := b.next_id + 1 })

/-- Lines 146-195 of slice.h: build the temporary chunk, collect overlapping
neighbours, apply the chunk-size-overlap limit, and finish the insertion.
The scan reads the chunk map and the limit fields, which setFirstIfEmpty
never modifies, so it is stated on the incoming state. -/
def SliceBuilder.insertBody (b : SliceBuilder) (icount address size : Nat) :
    InsertOutcome × SliceBuilder :=
  if b.overlapHit ((Chunk.mk1 b.next_id icount address size).size +
      sumSizes (scanOverl (Chunk.mk1 b.next_id icount address size) address
        b.slice.access_chunks)) = true then
    if icount > b.slice.transition_last then (.refused, b.setFirstIfEmpty icount)
    else
      ((b.setFirstIfEmpty icount).setStop).finishInsert
        ⟨b.next_id, icount, address, size % U32⟩
        (Chunk.mk1 b.next_id icount address size)
        (scanOverl (Chunk.mk1 b.next_id icount address size) address b.slice.access_chunks)
        (scanKept (Chunk.mk1 b.next_id icount address size) address b.slice.access_chunks)
        icount
  else
    (b.setFirstIfEmpty icount).finishInsert
      ⟨b.next_id, icount, address, size % U32⟩
      (Chunk.mk1 b.next_id icount address size)
      (scanOverl (Chunk.mk1 b.next_id icount address size) address b.slice.access_chunks)
      (scanKept (Chunk.mk1 b.next_id icount address size) address b.slice.access_chunks)
      icount

/-- The builder state after the access-count limit block of insert: when the
limit is engaged and reached (and the call was not refused), the sticky flag
has been raised; otherwise the state is untouched. -/
def SliceBuilder.afterCount (b : SliceBuilder) : SliceBuilder :=
  if b.countHit = true then b.setStop else b

/-- SliceBuilder::insert (slice.h lines 115-196), with the checks in source
order: size 0 throw, sticky-flag refusal, access-count limit, wrap-around
throw, backward-transition throw, transition-limit refusal, then the body.
The wrap, backward and transition-limit conditions read fields that the
access-count block never modifies, so they are stated on the incoming
state. -/
def SliceBuilder.insert (b : SliceBuilder) (icount address size : Nat) :
    InsertOutcome × SliceBuilder :=
  if size = 0 then (.invalidArg, b)
  else if icount > b.slice.transition_last ∧ b.stop_at_next_transition = true then
    (.refused, b)
  else if b.countHit = true ∧ icount > b.slice.transition_last then (.refused, b)
  else if wrapsU64 address size = true then (.invalidArg, b.afterCount)
  else if b.slice.access_chunks ≠ [] ∧ icount < b.slice.transition_last then
    (.invalidArg, b.afterCount)
  else if b.tlimitHit icount = true then (.refused, b.afterCount)
  else b.afterCount.insertBody icount address size

/-- The chunk-size-touch-limit condition of the post-build merge pass. -/
def touchOk (lim : Option Nat) (c n : Chunk) : Bool :=
  match lim with
  | some l => decide (c.size + n.size ≤ l)
  | none => true

/-- SliceBuilder::merge: fuse adjacent contiguous chunks while the touch
limit allows; the current chunk keeps absorbing successors until one fails. -/
def mergePassAux (lim : Option Nat) : Chunk → List Chunk → List Chunk
  | c, [] => [c]
  | c, n :: rest =>
    if c.is_contiguous n = true ∧ touchOk lim c n = true then
      mergePassAux lim (c.merge_in n) rest
    else c :: mergePassAux lim n rest

/-- SliceBuilder::build: run the contiguous-merge pass and yield the slice. -/
def SliceBuilder.build (b : SliceBuilder) : Slice :=
  { b.slice with
    access_chunks :=
      match b.slice.access_chunks with
      | [] => []
      | c :: rest => mergePassAux b.chunk_size_touch_limit c rest }

/-- Run a sequence of insert calls, returning the final builder state and
the list of returned access handles in call order. -/
def runInserts : List (Nat × Nat × Nat) → SliceBuilder → SliceBuilder × List ChunkAccess
  | [], b => (b, [])
  | (t, a, s) :: rest, b =>
    match (b.insert t a s).1 with
    | .inserted acc =>
      ((runInserts rest (b.insert t a s).2).1,
       acc :: (runInserts rest (b.insert t a s).2).2)
    | _ => runInserts rest (b.insert t a s).2

/-- The disjointness predicate of the specification: two chunks are disjoint
when one ends strictly before the other starts. -/
def ChunkDisjoint (a b : Chunk) : Prop :=
  a.address_last < b.address_first ∨ b.address_last < a.address_first

instance (a b : Chunk) : Decidable (ChunkDisjoint a b) := by
  unfold ChunkDisjoint
  exact inferInstance

section FrameLemmas

theorem afterCount_slice (b : SliceBuilder) : b.afterCount.slice = b.slice := by
  unfold SliceBuilder.afterCount SliceBuilder.setStop
  split <;> rfl

theorem afterCount_access_count (b : SliceBuilder) :
    b.afterCount.access_count = b.access_count := by
  unfold SliceBuilder.afterCount SliceBuilder.setStop
  split <;> rfl

theorem afterCount_next_id (b : SliceBuilder) : b.afterCount.next_id = b.next_id := by
  unfold SliceBuilder.afterCount SliceBuilder.setStop
  split <;> rfl

theorem afterCount_touch (b : SliceBuilder) :
    b.afterCount.chunk_size_touch_limit = b.chunk_size_touch_limit := by
  unfold SliceBuilder.afterCount SliceBuilder.setStop
  split <;> rfl

theorem afterCount_overlap (b : SliceBuilder) :
    b.afterCount.chunk_size_overlap_limit = b.chunk_size_overlap_limit := by
  unfold SliceBuilder.afterCount SliceBuilder.setStop
  split <;> rfl

theorem afterCount_tlim (b : SliceBuilder) :
    b.afterCount.transition_limit = b.transition_limit := by
  unfold SliceBuilder.afterCount SliceBuilder.setStop
  split <;> rfl

theorem afterCount_alim (b : SliceBuilder) :
    b.afterCount.access_count_limit = b.access_count_limit := by
  unfold SliceBuilder.afterCount SliceBuilder.setStop
  split <;> rfl

theorem afterCount_stop_mono (b : SliceBuilder)
    (h : b.stop_at_next_transition = true) :
    b.afterCount.stop_at_next_transition = true := by
  unfold SliceBuilder.afterCount SliceBuilder.setStop
  split
  · rfl
  · exact h

theorem setFirstIfEmpty_chunks (b : SliceBuilder) (t : Nat) :
    (b.setFirstIfEmpty t).slice.access_chunks = b.slice.access_chunks := by
  unfold SliceBuilder.setFirstIfEmpty
  split <;> rfl

theorem setFirstIfEmpty_last (b : SliceBuilder) (t : Nat) :
    (b.setFirstIfEmpty t).slice.transition_last = b.slice.transition_last := by
  unfold SliceBuilder.setFirstIfEmpty
  split <;> rfl

theorem setFirstIfEmpty_count (b : SliceBuilder) (t : Nat) :
    (b.setFirstIfEmpty t).access_count = b.access_count := by
  unfold SliceBuilder.setFirstIfEmpty
  split <;> rfl

theorem setFirstIfEmpty_stop (b : SliceBuilder) (t : Nat) :
    (b.setFirstIfEmpty t).stop_at_next_transition = b.stop_at_next_transition := by
  unfold SliceBuilder.setFirstIfEmpty
  split <;> rfl

theorem setFirstIfEmpty_next_id (b : SliceBuilder) (t : Nat) :
    (b.setFirstIfEmpty t).next_id = b.next_id := by
  unfold SliceBuilder.setFirstIfEmpty
  split <;> rfl

theorem setFirstIfEmpty_first_ne (b : SliceBuilder) (t : Nat)
    (h : b.slice.access_chunks ≠ []) :
    (b.setFirstIfEmpty t).slice.transition_first = b.slice.transition_first := by
  unfold SliceBuilder.setFirstIfEmpty
  rw [if_neg h]

/-- The body of insert either refuses, leaving the state equal to the input
with transition_first possibly set on an empty map, or returns a handle. -/
theorem insertBody_cases (b : SliceBuilder) (t a s : Nat) :
    b.insertBody t a s = (InsertOutcome.refused, b.setFirstIfEmpty t) ∨
    ∃ acc, (b.insertBody t a s).1 = InsertOutcome.inserted acc := by
  unfold SliceBuilder.insertBody
  split
  · split
    · exact Or.inl rfl
    · exact Or.inr ⟨_, rfl⟩
  · exact Or.inr ⟨_, rfl⟩

/-- On a refusal, the state returned by insert is one of three explicitly
known frames. -/
theorem insert_refused_state (b : SliceBuilder) (t a s : Nat) (out : InsertOutcome)
    (b2 : SliceBuilder) (heq : b.insert t a s = (out, b2))
    (hout : out = InsertOutcome.refused) :
    b2 = b ∨ b2 = b.afterCount ∨ b2 = b.afterCount.setFirstIfEmpty t := by
  unfold SliceBuilder.insert at heq
  split at heq
  · cases heq
    cases hout
  · split at heq
    · cases heq
      exact Or.inl rfl
    · split at heq
      · cases heq
        exact Or.inl rfl
      · split at heq
        · cases heq
          cases hout
        · split at heq
          · cases heq
            cases hout
          · split at heq
            · cases heq
              exact Or.inr (Or.inl rfl)
            · rcases insertBody_cases b.afterCount t a s with hb | ⟨acc, hb⟩
              · rw [hb] at heq
                cases heq
                exact Or.inr (Or.inr rfl)
              · rw [heq] at hb
                simp only at hb
                rw [hout] at hb
                cases hb

end FrameLemmas

/-- A default builder without any limit configured. -/
def noLimitBuilder : SliceBuilder := SliceBuilder.init none none none none

section ClaimC3

/-- C3, counterexample.  A chunk spanning exactly the single address
u64::MAX (produced by the constructor from address = u64::MAX, size = 1, as
in the wraparound unit test) has address_first ≤ address_last, shares its
address with itself, yet overlaps reports false, because address_last + 1
wraps to 0 in u64 arithmetic.  The claim asserts overlaps returns true
exactly when the two inclusive intervals share an address. -/
theorem c3_counterexample :
    Chunk.overlaps ⟨U64 - 1, U64 - 1, []⟩ ⟨U64 - 1, U64 - 1, []⟩ = false ∧
    (U64 - 1 : Nat) ≤ (U64 - 1 : Nat) ∧
    (Chunk.mk1 0 0 (U64 - 1) 1).address_first = U64 - 1 ∧
    (Chunk.mk1 0 0 (U64 - 1) 1).address_last = U64 - 1 := by
  refine ⟨by decide, le_refl _, by decide, by decide⟩

/-- C3, amended.  For chunks a, b with address_first ≤ address_last whose
address_last lies strictly below u64::MAX (so that address_last + 1 does not
wrap), overlaps returns true if and only if the two inclusive address
intervals share at least one address.  When either chunk ends exactly at
u64::MAX the function returns false regardless of intersection, as the
counterexample shows. -/
theorem c3_amended (a b : Chunk)
    (ha1 : a.address_first ≤ a.address_last) (ha2 : a.address_last < U64 - 1)
    (hb1 : b.address_first ≤ b.address_last) (hb2 : b.address_last < U64 - 1) :
    a.overlaps b = true ↔
      ∃ x, a.address_first ≤ x ∧ x ≤ a.address_last ∧
           b.address_first ≤ x ∧ x ≤ b.address_last := by
  have hU : 0 < U64 := by decide
  have hma : (a.address_last + 1) % U64 = a.address_last + 1 :=
    Nat.mod_eq_of_lt (by omega)
  have hmb : (b.address_last + 1) % U64 = b.address_last + 1 :=
    Nat.mod_eq_of_lt (by omega)
  constructor
  · intro h
    simp only [Chunk.overlaps, hma, hmb, Bool.not_eq_true', Bool.or_eq_false_iff,
      decide_eq_false_iff_not, not_le] at h
    exact ⟨max a.address_first b.address_first,
      le_max_left _ _, by omega, le_max_right _ _, by omega⟩
  · rintro ⟨x, hx1, hx2, hx3, hx4⟩
    simp only [Chunk.overlaps, hma, hmb, Bool.not_eq_true', Bool.or_eq_false_iff,
      decide_eq_false_iff_not, not_le]
    omega

/-- Witness for c3_amended at the concrete chunks [2, 5] and [4, 9]. -/
theorem c3_amended_witness :
    ((2 : Nat) ≤ 5 ∧ (5 : Nat) < U64 - 1 ∧ (4 : Nat) ≤ 9 ∧ (9 : Nat) < U64 - 1) ∧
    (Chunk.overlaps ⟨2, 5, []⟩ ⟨4, 9, []⟩ = true ↔
      ∃ x, (2 : Nat) ≤ x ∧ x ≤ 5 ∧ (4 : Nat) ≤ x ∧ x ≤ 9) :=
  ⟨⟨by decide, by decide, by decide, by decide⟩,
   c3_amended ⟨2, 5, []⟩ ⟨4, 9, []⟩ (by decide) (by decide) (by decide) (by decide)⟩

end ClaimC3

section ClaimC5

/-- The builder state after the first insert of the wraparound scenario:
a successful insert at transition 0, address u64::MAX, size 1. -/
def c5state : SliceBuilder := (noLimitBuilder.insert 0 (U64 - 1) 1).2

/-- C5, counterexample.  After the successful insert at (u64::MAX, 1), the
further insert at the same transition with address u64::MAX - 2 and size 3
(whose range overlaps u64::MAX) is accepted with a handle, not rejected with
InvalidArgument as the claim states; this matches the repository unit test
test_db_writer_slice_builder_wraparound, which expects no throw here. -/
theorem c5_counterexample :
    (noLimitBuilder.insert 0 (U64 - 1) 1).1 = InsertOutcome.inserted ⟨0, 0, U64 - 1, 1⟩ ∧
    (c5state.insert 0 (U64 - 3) 3).1 = InsertOutcome.inserted ⟨1, 0, U64 - 3, 3⟩ := by
  constructor <;> decide

/-- C5, amended.  After a successful insert at (address = u64::MAX, size = 1),
a further insert at the same transition with address u64::MAX - 2 and size 3,
whose range ends exactly at u64::MAX, is accepted; it is the insert with
size 4 at that address, whose range passes u64::MAX (address + size - 1
wraps), that is rejected with InvalidArgument. -/
theorem c5_amended :
    (noLimitBuilder.insert 0 (U64 - 1) 1).1 = InsertOutcome.inserted ⟨0, 0, U64 - 1, 1⟩ ∧
    (c5state.insert 0 (U64 - 3) 3).1 = InsertOutcome.inserted ⟨1, 0, U64 - 3, 3⟩ ∧
    ((c5state.insert 0 (U64 - 3) 3).2.insert 0 (U64 - 3) 4).1 = InsertOutcome.invalidArg := by
  refine ⟨by decide, by decide, by decide⟩

end ClaimC5

section ClaimC4

/-- The builder used in the C4 counterexample: an access count limit of 1,
already holding one access at transition 0. -/
def c4state : SliceBuilder :=
  ((SliceBuilder.init none none none (some 1)).insert 0 0 1).2

/-- C4, counterexample.  With the access count limit reached, an insert at a
new transition whose address + size wraps around u64 (address = u64::MAX,
size = 2) returns the soft refusal nullptr instead of raising
InvalidArgument: the access-count check precedes the wrap check in insert,
so the claim that InvalidArgument is raised exactly on size 0, wrap, or
backward transition fails in the wrap direction. -/
theorem c4_counterexample :
    (c4state.insert 1 (U64 - 1) 2).1 = InsertOutcome.refused ∧
    U64 < (U64 - 1) + 2 := by
  constructor <;> decide

/-- C4, amended.  insert raises InvalidArgument exactly when size = 0, or
when - not having been refused first by the sticky flag or by a reached
access count limit at a transition beyond transition_last - the address
plus size wraps around u64 or the transition goes backward while the chunk
map is non-empty; in all other cases it returns a handle or a refusal. -/
theorem c4_amended (b : SliceBuilder) (icount address size : Nat) :
    (b.insert icount address size).1 = InsertOutcome.invalidArg ↔
      size = 0 ∨
      (¬(icount > b.slice.transition_last ∧
          (b.stop_at_next_transition = true ∨ b.countHit = true)) ∧
        (wrapsU64 address size = true ∨
          (b.slice.access_chunks ≠ [] ∧ icount < b.slice.transition_last))) := by
  rcases hp : b.insert icount address size with ⟨out, b2⟩
  show out = InsertOutcome.invalidArg ↔ _
  unfold SliceBuilder.insert at hp
  split at hp
  · rename_i h0
    cases hp
    simp [h0]
  · rename_i h0
    split at hp
    · rename_i h1
      cases hp
      constructor
      · intro he
        cases he
      · rintro (h | ⟨hne, _⟩)
        · exact (h0 h).elim
        · exact (hne ⟨h1.1, Or.inl h1.2⟩).elim
    · rename_i h1
      split at hp
      · rename_i h2
        cases hp
        constructor
        · intro he
          cases he
        · rintro (h | ⟨hne, _⟩)
          · exact (h0 h).elim
          · exact (hne ⟨h2.2, Or.inr h2.1⟩).elim
      · rename_i h2
        have hEarly : ¬(icount > b.slice.transition_last ∧
            (b.stop_at_next_transition = true ∨ b.countHit = true)) := by
          rintro ⟨hgt, hor⟩
          rcases hor with hh | hh
          · exact h1 ⟨hgt, hh⟩
          · exact h2 ⟨hh, hgt⟩
        split at hp
        · rename_i h3
          cases hp
          exact iff_of_true rfl (Or.inr ⟨hEarly, Or.inl h3⟩)
        · rename_i h3
          split at hp
          · rename_i h4
            cases hp
            exact iff_of_true rfl (Or.inr ⟨hEarly, Or.inr h4⟩)
          · rename_i h4
            have hrhs : ¬(size = 0 ∨
                (¬(icount > b.slice.transition_last ∧
                    (b.stop_at_next_transition = true ∨ b.countHit = true)) ∧
                  (wrapsU64 address size = true ∨
                    (b.slice.access_chunks ≠ [] ∧ icount < b.slice.transition_last)))) := by
              rintro (h | ⟨_, hw | hb⟩)
              · exact h0 h
              · exact h3 hw
              · exact h4 hb
            split at hp
            · cases hp
              exact iff_of_false (fun he => by cases he) hrhs
            · rcases insertBody_cases b.afterCount icount address size with hb | ⟨acc, hb⟩
              · rw [hb] at hp
                cases hp
                exact iff_of_false (fun he => by cases he) hrhs
              · rw [hp] at hb
                simp only at hb
                rw [hb]
                exact iff_of_false (fun he => by cases he) hrhs

end ClaimC4

section ClaimC10

/-- The builder used in the C10 counterexample: a chunk-size-overlap limit
of 0 and an empty chunk map. -/
def c10state : SliceBuilder := SliceBuilder.init none (some 0) none none

/-- C10, counterexample.  With chunk_size_overlap_limit = 0 and an empty
chunk map, insert(1, 5, 1) returns the refusal nullptr, yet the call has
mutated the builder: transition_first was set from 0 to 1 (slice.h sets
transition_first on an empty map before the overlap-limit check refuses).
The claim asserts the whole state is unchanged on every refusal. -/
theorem c10_counterexample :
    (c10state.insert 1 5 1).1 = InsertOutcome.refused ∧
    (c10state.insert 1 5 1).2.slice.transition_first = 1 ∧
    c10state.slice.transition_first = 0 := by
  refine ⟨by decide, by decide, by decide⟩

/-- C10, amended.  Whenever insert returns a refusal, the chunk map, the
access count and transition_last keep their previous values; the sticky
stop_at_next_transition flag can only be raised, never cleared (it is raised
on a refusal only in the transition_limit = 0 corner case); and
transition_first is unchanged whenever the chunk map is non-empty (on an
empty map an overlap-limit refusal may set it to the refused transition). -/
theorem c10_amended (b : SliceBuilder) (icount address size : Nat)
    (h : (b.insert icount address size).1 = InsertOutcome.refused) :
    (b.insert icount address size).2.slice.access_chunks = b.slice.access_chunks ∧
    (b.insert icount address size).2.access_count = b.access_count ∧
    (b.insert icount address size).2.slice.transition_last = b.slice.transition_last ∧
    (b.stop_at_next_transition = true →
      (b.insert icount address size).2.stop_at_next_transition = true) ∧
    (b.slice.access_chunks ≠ [] →
      (b.insert icount address size).2.slice.transition_first = b.slice.transition_first) := by
  rcases hp : b.insert icount address size with ⟨out, b2⟩
  rw [hp] at h
  have hst := insert_refused_state b icount address size out b2 hp h
  show b2.slice.access_chunks = _ ∧ b2.access_count = _ ∧ b2.slice.transition_last = _ ∧ _ ∧ _
  rcases hst with rfl | rfl | rfl
  · exact ⟨rfl, rfl, rfl, fun hs => hs, fun _ => rfl⟩
  · exact ⟨by rw [afterCount_slice], afterCount_access_count b, by rw [afterCount_slice],
      afterCount_stop_mono b, fun _ => by rw [afterCount_slice]⟩
  · refine ⟨?_, ?_, ?_, ?_, ?_⟩
    · rw [setFirstIfEmpty_chunks, afterCount_slice]
    · rw [setFirstIfEmpty_count, afterCount_access_count]
    · rw [setFirstIfEmpty_last, afterCount_slice]
    · intro hs
      rw [setFirstIfEmpty_stop]
      exact afterCount_stop_mono b hs
    · intro hne
      have hne2 : b.afterCount.slice.access_chunks ≠ [] := by
        rw [afterCount_slice]
        exact hne
      rw [setFirstIfEmpty_first_ne _ _ hne2, afterCount_slice]

/-- Witness for c10_amended: a builder whose sticky flag is set refuses an
insert at a larger transition and the frame conditions hold there. -/
theorem c10_amended_witness :
    ((⟨⟨[], 0, 0⟩, none, none, none, none, true, 0, 0⟩ :
        SliceBuilder).insert 1 0 1).1 = InsertOutcome.refused ∧
    (((⟨⟨[], 0, 0⟩, none, none, none, none, true, 0, 0⟩ :
        SliceBuilder).insert 1 0 1).2.slice.access_chunks = [] ∧
      ((⟨⟨[], 0, 0⟩, none, none, none, none, true, 0, 0⟩ :
        SliceBuilder).insert 1 0 1).2.access_count = 0 ∧
      ((⟨⟨[], 0, 0⟩, none, none, none, none, true, 0, 0⟩ :
        SliceBuilder).insert 1 0 1).2.slice.transition_last = 0 ∧
      (true = true →
        ((⟨⟨[], 0, 0⟩, none, none, none, none, true, 0, 0⟩ :
          SliceBuilder).insert 1 0 1).2.stop_at_next_transition = true) ∧
      (([] : List Chunk) ≠ [] →
        ((⟨⟨[], 0, 0⟩, none, none, none, none, true, 0, 0⟩ :
          SliceBuilder).insert 1 0 1).2.slice.transition_first = 0)) :=
  ⟨by decide,
   c10_amended ⟨⟨[], 0, 0⟩, none, none, none, none, true, 0, 0⟩ 1 0 1 (by decide)⟩

end ClaimC10

section CounterexamplesC1C2C6

/-- The two-insert run of the C1 counterexample: a chunk at u64::MAX and a
chunk covering the three top addresses, both successfully inserted. -/
def c1run : SliceBuilder × List ChunkAccess :=
  runInserts [(0, U64 - 1, 1), (0, U64 - 3, 3)] noLimitBuilder

/-- C1, counterexample.  Both inserts succeed (two handles are returned), yet
the built slice contains the chunks [u64::MAX - 2, u64::MAX] and
[u64::MAX, u64::MAX], which share the address u64::MAX: the pairwise
disjointness the claim asserts fails, because overlaps cannot see a chunk
ending at u64::MAX (its address_last + 1 wraps to 0). -/
theorem c1_counterexample :
    c1run.2.length = 2 ∧
    ¬ ((c1run.1.build).access_chunks.Pairwise ChunkDisjoint) := by
  constructor
  · decide
  · decide

/-- The two-insert run of the C2 counterexample: the second access overlaps
the first chunk and triggers a merge. -/
def c2run : SliceBuilder × List ChunkAccess :=
  runInserts [(1, 10, 10), (2, 8, 10)] noLimitBuilder

/-- C2, counterexample.  After inserting (transition 1, address 10, size 10)
and then (transition 2, address 8, size 10), the single chunk of the built
slice lists its accesses as transitions [2, 1]: the merge places the newly
inserted access before the absorbed chunk accesses, so traversal is neither
in insertion order ([1, 2]) nor in non-decreasing transition order. -/
theorem c2_counterexample :
    ((c2run.1.build).access_chunks.map (fun c => c.accesses.map ChunkAccess.transition)) =
      [[2, 1]] ∧
    ¬ List.Sorted (· ≤ ·) [2, 1] := by
  constructor
  · decide
  · decide

/-- The builder of the C6 counterexample: access count limit 1 and
transition limit 0, holding one access at transition 5. -/
def c6state : SliceBuilder :=
  (runInserts [(5, 10, 1)] (SliceBuilder.init none none (some 0) (some 1))).1

/-- C6, counterexample.  The access count limit is reached and the next
insert arrives at transition 5 = transition_last, so the claim requires it
to be accepted; instead it is refused, because with transition_limit = 0 the
transition-limit check (transition - transition_first + 1 > 0) fires even at
the current transition.  The subsequent same-transition insert, after the
sticky flag has been raised, is refused for the same reason. -/
theorem c6_counterexample :
    c6state.countHit = true ∧
    c6state.slice.transition_last = 5 ∧
    (c6state.insert 5 20 1).1 = InsertOutcome.refused ∧
    (c6state.insert 5 20 1).2.stop_at_next_transition = true ∧
    ((c6state.insert 5 20 1).2.insert 5 30 1).1 = InsertOutcome.refused := by
  refine ⟨by decide, by decide, by decide, by decide, by decide⟩

end CounterexamplesC1C2C6

/-! The DbWriter model (db_writer.h / db_writer.cpp): two slice builders,
the access-order log, and the three database tables. -/

/-- Operation kinds (enum class Operation of db_writer.h). -/
inductive Operation where
  | execute
  | write
  | read
deriving DecidableEq

/-- The database byte encoding of an operation: Execute 0b001, Write 0b010,
Read 0b100. -/
def Operation.byte : Operation → Nat
  | .execute => 1
  | .write => 2
  | .read => 4

/-- The input record of DbWriter::push (struct MemoryAccess). -/
structure MemoryAccess where
  transition_id : Nat
  physical_address : Nat
  virtual_address : Nat
  size : Nat
  has_virtual_address : Bool
  operation : Operation
deriving DecidableEq

/-- One entry of the access-order log (struct AccessInfo of db_writer.cpp):
the handle to the inserted immutable access node plus the virtual-address
data and the operation byte. -/
structure AccessInfo where
  chunk_access : ChunkAccess
  has_virtual_address : Bool
  virtual_address : Nat
  operation : Nat
deriving DecidableEq

/-- A row of the accesses table. -/
structure AccessRow where
  chunk_id : Nat
  transition : Nat
  linear : Option Nat
  phy_first : Nat
  size : Nat
  operation : Nat
deriving DecidableEq

/-- A row of the chunks table. -/
structure ChunkRow where
  slice_id : Nat
  phy_first : Nat
  phy_last : Nat
  operation : Nat
deriving DecidableEq

/-- The three tables of the database; the row id of an entry is its position
plus one, matching the monotone rowids of a single-threaded insert stream. -/
structure Db where
  slices : List (Nat × Nat)
  chunks : List ChunkRow
  accesses : List AccessRow
deriving DecidableEq

/-- Errors surfaced by the writer: thrown invalid_argument from the builder,
the runtime rejection of Execute accesses, and the three logic errors of
db_writer.cpp. -/
inductive WErr where
  | invalidArg
  | runtimeExecute
  | logicRetry
  | logicEmptySlices
  | logicMissingAccess
deriving DecidableEq

/-- The writer state (class DbWriter): the database, both builders, the
access-order log, and the arena counter modelling pointer identity of
ChunkAccess nodes across both builders. -/
structure DbWriter where
  db : Db
  read_slice_builder : SliceBuilder
  write_slice_builder : SliceBuilder
  current_access_list : List AccessInfo
  next_ptr : Nat
deriving DecidableEq

/-- The fixed capacity configuration of DbWriter::create_slices:
chunk_size_overlap_limit 100000, chunk_size_touch_limit 1000,
access_count_limit 10000000, no transition limit. -/
def fixedBuilder : SliceBuilder :=
  SliceBuilder.init (some 1000) (some 100000) none (some 10000000)

/-- DbWriter::create_slices: fresh builders with the fixed configuration. -/
def DbWriter.create_slices (w : DbWriter) : DbWriter :=
  { w with read_slice_builder := fixedBuilder, write_slice_builder := fixedBuilder }

/-- The writer produced by the DbWriter constructor: empty database, empty
log, fresh builders. -/
def DbWriter.initial : DbWriter :=
  { db := ⟨[], [], []⟩
    read_slice_builder := fixedBuilder
    write_slice_builder := fixedBuilder
    current_access_list := []
    next_ptr := 0 }

/-- Route an insert to the builder of the given kind; the identity of a new
node is drawn from the writer-wide arena counter. -/
def DbWriter.insertVia (w : DbWriter) (isRead : Bool) (t p s : Nat) :
    InsertOutcome × DbWriter :=
  if isRead then
    ((({ w.read_slice_builder with next_id := w.next_ptr }).insert t p s).1,
     { w with
       read_slice_builder := (({ w.read_slice_builder with next_id := w.next_ptr }).insert t p s).2
       next_ptr := (({ w.read_slice_builder with next_id := w.next_ptr }).insert t p s).2.next_id })
  else
    ((({ w.write_slice_builder with next_id := w.next_ptr }).insert t p s).1,
     { w with
       write_slice_builder := (({ w.write_slice_builder with next_id := w.next_ptr }).insert t p s).2
       next_ptr := (({ w.write_slice_builder with next_id := w.next_ptr }).insert t p s).2.next_id })

/-- Descending insertion by address_first, modelling the std::sort call of
insert_chunks (comparator a.chunk->address_first() > b.chunk->address_first()). -/
def insertDescByFirst (x : Nat × Chunk) : List (Nat × Chunk) → List (Nat × Chunk)
  | [] => [x]
  | y :: ys =>
    if x.2.address_first > y.2.address_first then x :: y :: ys
    else y :: insertDescByFirst x ys

def sortDescByFirst (l : List (Nat × Chunk)) : List (Nat × Chunk) :=
  l.foldr insertDescByFirst []

/-- std::unordered_map::emplace keyed by node identity: keep the first
binding of a key. -/
def emplaceId (m : List (Nat × Nat)) (k v : Nat) : List (Nat × Nat) :=
  match m.find? (fun kv => kv.1 == k) with
  | some _ => m
  | none => m ++ [(k, v)]

/-- insert_chunks of db_writer.cpp: walk the sorted tagged chunks, emit one
chunk row each with consecutive row ids, and record for every access of the
chunk the mapping from its identity to the chunk row id. -/
def buildChunkRows (slice_id : Nat) :
    Nat → List (Nat × Nat) → List (Nat × Chunk) → List ChunkRow × List (Nat × Nat)
  | _, m, [] => ([], m)
  | nextRow, m, x :: rest =>
    let r := buildChunkRows slice_id (nextRow + 1)
      (x.2.accesses.foldl (fun acc a => emplaceId acc a.id nextRow) m) rest
    (⟨slice_id, x.2.address_first, x.2.address_last, x.1⟩ :: r.1, r.2)

/-- insert_accesses of db_writer.cpp: one access row per log entry in log
order; a handle missing from the map is the logic error of the C++. -/
def insert_accesses (m : List (Nat × Nat)) : List AccessInfo → Except WErr (List AccessRow)
  | [] => .ok []
  | e :: rest =>
    match m.find? (fun kv => kv.1 == e.chunk_access.id) with
    | none => .error .logicMissingAccess
    | some kv =>
      match insert_accesses m rest with
      | .ok rows =>
        .ok (⟨kv.2, e.chunk_access.transition,
              if e.has_virtual_address then some e.virtual_address else none,
              e.chunk_access.address, e.chunk_access.size, e.operation⟩ :: rows)
      | .error er => .error er

/-- The unified transition_first of the slice row (insert_slice). -/
def DbWriter.flushFirst (w : DbWriter) : Nat :=
  if (w.read_slice_builder.build).access_chunks = [] then
    (w.write_slice_builder.build).transition_first
  else if (w.write_slice_builder.build).access_chunks = [] then
    (w.read_slice_builder.build).transition_first
  else
    min (w.read_slice_builder.build).transition_first
        (w.write_slice_builder.build).transition_first

/-- The unified transition_last of the slice row (insert_slice). -/
def DbWriter.flushLast (w : DbWriter) : Nat :=
  if (w.read_slice_builder.build).access_chunks = [] then
    (w.write_slice_builder.build).transition_last
  else if (w.write_slice_builder.build).access_chunks = [] then
    (w.read_slice_builder.build).transition_last
  else
    max (w.read_slice_builder.build).transition_last
        (w.write_slice_builder.build).transition_last

/-- The chunk list of one flush: read chunks tagged with the Read byte, then
write chunks tagged with the Write byte, sorted descending by address. -/
def DbWriter.flushTagged (w : DbWriter) : List (Nat × Chunk) :=
  sortDescByFirst
    ((w.read_slice_builder.build).access_chunks.map (fun c => ((4 : Nat), c)) ++
     (w.write_slice_builder.build).access_chunks.map (fun c => ((2 : Nat), c)))

/-- The batch of one flush: emit the slice row, the chunk rows and the
access rows, and clear the log. -/
def flushCore (w : DbWriter) (tf tl : Nat) (tagged : List (Nat × Chunk)) :
    Except WErr DbWriter :=
  match insert_accesses
      (buildChunkRows (w.db.slices.length + 1) (w.db.chunks.length + 1) [] tagged).2
      w.current_access_list with
  | .error e => .error e
  | .ok arows =>
    .ok { w with
          db := ⟨w.db.slices ++ [(tf, tl)],
                 w.db.chunks ++
                   (buildChunkRows (w.db.slices.length + 1) (w.db.chunks.length + 1) []
                     tagged).1,
                 w.db.accesses ++ arows⟩
          current_access_list := [] }

/-- DbWriter::insert_slices: a no-op on an empty log; flushing with both
slices empty is a logic error; otherwise run the batch. -/
def DbWriter.insert_slices (w : DbWriter) : Except WErr DbWriter :=
  if w.current_access_list = [] then .ok w
  else if (w.read_slice_builder.build).access_chunks = [] ∧
          (w.write_slice_builder.build).access_chunks = [] then
    .error .logicEmptySlices
  else flushCore w w.flushFirst w.flushLast w.flushTagged

/-- Append an accepted access handle to the access-order log. -/
def DbWriter.logAppend (w : DbWriter) (acc : ChunkAccess) (a : MemoryAccess) : DbWriter :=
  { w with current_access_list :=
      w.current_access_list ++
        [⟨acc, a.has_virtual_address, a.virtual_address, a.operation.byte⟩] }

/-- DbWriter::push: reject Execute, forward to the kind-matching builder, log
the handle on acceptance; on a refusal flush, recreate fresh builders and
retry the insert, a second refusal being the logic error of the C++. -/
def DbWriter.push (w : DbWriter) (a : MemoryAccess) : Except WErr DbWriter :=
  if a.operation = Operation.execute then .error .runtimeExecute
  else
    match w.insertVia (a.operation == Operation.read) a.transition_id
        a.physical_address a.size with
    | (.invalidArg, _) => .error .invalidArg
    | (.inserted acc, w1) => .ok (w1.logAppend acc a)
    | (.refused, w1) =>
      match w1.insert_slices with
      | .error e => .error e
      | .ok w2 =>
        match w2.create_slices.insertVia (a.operation == Operation.read) a.transition_id
            a.physical_address a.size with
        | (.inserted acc, w3) => .ok (w3.logAppend acc a)
        | (.refused, _) => .error .logicRetry
        | (.invalidArg, _) => .error .invalidArg

/-- DbWriter::take: flush, then hand the database over. -/
def DbWriter.take (w : DbWriter) : Except WErr Db :=
  match w.insert_slices with
  | .ok w2 => .ok w2.db
  | .error e => .error e

/-- Run a sequence of pushes from a writer state. -/
def runPushes : List MemoryAccess → DbWriter → Except WErr DbWriter
  | [], w => .ok w
  | a :: rest, w =>
    match w.push a with
    | .ok w2 => runPushes rest w2
    | .error e => .error e

section WriterLemmas

/-- The claim-relevant fields of an access row, chunk id excluded:
transition, linear, phy_first, size, operation. -/
def rowProj (r : AccessRow) : Nat × Option Nat × Nat × Nat × Nat :=
  (r.transition, r.linear, r.phy_first, r.size, r.operation)

/-- The same fields read from a log entry. -/
def entryProj (e : AccessInfo) : Nat × Option Nat × Nat × Nat × Nat :=
  (e.chunk_access.transition,
   if e.has_virtual_address then some e.virtual_address else none,
   e.chunk_access.address, e.chunk_access.size, e.operation)

/-- The same fields as determined by the pushed access. -/
def pushProj (a : MemoryAccess) : Nat × Option Nat × Nat × Nat × Nat :=
  (a.transition_id,
   if a.has_virtual_address then some a.virtual_address else none,
   a.physical_address, a.size % U32, a.operation.byte)

/-- The persisted rows followed by the still-pending log entries, projected:
the abstract row history of a writer state. -/
def absRows (w : DbWriter) : List (Nat × Option Nat × Nat × Nat × Nat) :=
  w.db.accesses.map rowProj ++ w.current_access_list.map entryProj

/-- A successful insert returns exactly the node built from the arguments:
the arena id, the transition, the address and the u32-narrowed size. -/
theorem insert_inserted_val (b : SliceBuilder) (t a s : Nat) (acc : ChunkAccess)
    (h : (b.insert t a s).1 = InsertOutcome.inserted acc) :
    acc = ⟨b.next_id, t, a, s % U32⟩ := by
  unfold SliceBuilder.insert at h
  split at h
  · simp at h
  · split at h
    · simp at h
    · split at h
      · simp at h
      · split at h
        · simp at h
        · split at h
          · simp at h
          · split at h
            · simp at h
            · unfold SliceBuilder.insertBody at h
              split at h
              · split at h
                · simp at h
                · have h2 : InsertOutcome.inserted
                      (⟨b.afterCount.next_id, t, a, s % U32⟩ : ChunkAccess) =
                      InsertOutcome.inserted acc := h
                  injection h2 with h3
                  rw [← h3, afterCount_next_id]
              · have h2 : InsertOutcome.inserted
                    (⟨b.afterCount.next_id, t, a, s % U32⟩ : ChunkAccess) =
                    InsertOutcome.inserted acc := h
                injection h2 with h3
                rw [← h3, afterCount_next_id]

theorem insertVia_db (w : DbWriter) (isRead : Bool) (t p s : Nat) :
    (w.insertVia isRead t p s).2.db = w.db := by
  unfold DbWriter.insertVia
  split <;> rfl

theorem insertVia_log (w : DbWriter) (isRead : Bool) (t p s : Nat) :
    (w.insertVia isRead t p s).2.current_access_list = w.current_access_list := by
  unfold DbWriter.insertVia
  split <;> rfl

/-- The handle returned by a routed insert carries the pushed transition,
address and narrowed size. -/
theorem insertVia_acc (w : DbWriter) (isRead : Bool) (t p s : Nat)
    (acc : ChunkAccess) (w1 : DbWriter)
    (heq : w.insertVia isRead t p s = (InsertOutcome.inserted acc, w1)) :
    acc = ⟨w.next_ptr, t, p, s % U32⟩ := by
  unfold DbWriter.insertVia at heq
  split at heq
  · injection heq with h1 _
    exact insert_inserted_val _ t p s acc h1
  · injection heq with h1 _
    exact insert_inserted_val _ t p s acc h1

/-- insert_accesses, when it succeeds, emits one row per log entry carrying
exactly the fields of that entry, in log order. -/
theorem insert_accesses_proj (m : List (Nat × Nat)) :
    ∀ (log : List AccessInfo) (rows : List AccessRow),
      insert_accesses m log = .ok rows → rows.map rowProj = log.map entryProj := by
  intro log
  induction log with
  | nil =>
    intro rows h
    unfold insert_accesses at h
    cases h
    rfl
  | cons e rest ih =>
    intro rows h
    unfold insert_accesses at h
    split at h
    · exact (Except.noConfusion h)
    · split at h
      · rename_i rows2 hrows2
        cases h
        simp only [List.map_cons]
        rw [ih rows2 hrows2]
        rfl
      · exact (Except.noConfusion h)

/-- insert_accesses fails only with the missing-access logic error. -/
theorem insert_accesses_err (m : List (Nat × Nat)) :
    ∀ (log : List AccessInfo) (e : WErr),
      insert_accesses m log = .error e → e = WErr.logicMissingAccess := by
  intro log
  induction log with
  | nil =>
    intro e h
    unfold insert_accesses at h
    exact (Except.noConfusion h)
  | cons x rest ih =>
    intro e h
    unfold insert_accesses at h
    split at h
    · cases h
      rfl
    · split at h
      · exact (Except.noConfusion h)
      · rename_i e2 he2
        cases h
        exact ih _ he2

theorem flushCore_abs (w : DbWriter) (tf tl : Nat) (tagged : List (Nat × Chunk))
    (w2 : DbWriter) (h : flushCore w tf tl tagged = .ok w2) :
    absRows w2 = absRows w ∧ w2.current_access_list = [] := by
  unfold flushCore at h
  split at h
  · exact (Except.noConfusion h)
  · rename_i arows harows
    cases h
    refine ⟨?_, rfl⟩
    show (w.db.accesses ++ arows).map rowProj ++ ([] : List AccessInfo).map entryProj = _
    rw [List.map_append, List.map_nil, List.append_nil,
      insert_accesses_proj _ _ _ harows]
    rfl

/-- A successful flush preserves the abstract row history and clears the
log: the pending entries become persisted rows with the same fields in the
same order. -/
theorem insert_slices_abs (w w2 : DbWriter) (h : w.insert_slices = .ok w2) :
    absRows w2 = absRows w ∧ w2.current_access_list = [] := by
  unfold DbWriter.insert_slices at h
  split at h
  · rename_i hemp
    cases h
    exact ⟨rfl, hemp⟩
  · split at h
    · exact (Except.noConfusion h)
    · exact flushCore_abs _ _ _ _ _ h

/-- A flush never fails with the retry logic error. -/
theorem insert_slices_err (w : DbWriter) (e : WErr)
    (h : w.insert_slices = .error e) : e ≠ WErr.logicRetry := by
  unfold DbWriter.insert_slices at h
  split at h
  · exact (Except.noConfusion h)
  · split at h
    · cases h
      intro hc
      cases hc
    · unfold flushCore at h
      split at h
      · rename_i e2 he2
        cases h
        rw [insert_accesses_err _ _ _ he2]
        intro hc
        cases hc
      · exact (Except.noConfusion h)

/-- A successful push extends the abstract row history by exactly the
projected fields of the pushed access. -/
theorem push_abs (w : DbWriter) (a : MemoryAccess) (w2 : DbWriter)
    (h : w.push a = .ok w2) : absRows w2 = absRows w ++ [pushProj a] := by
  unfold DbWriter.push at h
  split at h
  · exact (Except.noConfusion h)
  · split at h
    · exact (Except.noConfusion h)
    · rename_i acc w1 heq
      cases h
      have hdb : w1.db = w.db := by
        have h2 := congrArg (fun x => x.2.db) heq
        simp only at h2
        rw [insertVia_db] at h2
        exact h2.symm
      have hlog : w1.current_access_list = w.current_access_list := by
        have h2 := congrArg (fun x => x.2.current_access_list) heq
        simp only at h2
        rw [insertVia_log] at h2
        exact h2.symm
      have hacc := insertVia_acc _ _ _ _ _ acc w1 heq
      subst hacc
      simp [absRows, DbWriter.logAppend, hdb, hlog, entryProj, pushProj]
    · rename_i w1 heq
      split at h
      · exact (Except.noConfusion h)
      · rename_i wf hflush
        split at h
        · rename_i acc w3 heq2
          cases h
          have hdb1 : w1.db = w.db := by
            have h2 := congrArg (fun x => x.2.db) heq
            simp only at h2
            rw [insertVia_db] at h2
            exact h2.symm
          have hlog1 : w1.current_access_list = w.current_access_list := by
            have h2 := congrArg (fun x => x.2.current_access_list) heq
            simp only at h2
            rw [insertVia_log] at h2
            exact h2.symm
          obtain ⟨habs, _⟩ := insert_slices_abs w1 wf hflush
          have hdb3 : w3.db = wf.db := by
            have h2 := congrArg (fun x => x.2.db) heq2
            simp only at h2
            rw [insertVia_db] at h2
            exact h2.symm
          have hlog3 : w3.current_access_list = wf.current_access_list := by
            have h2 := congrArg (fun x => x.2.current_access_list) heq2
            simp only at h2
            rw [insertVia_log] at h2
            exact h2.symm
          have hacc := insertVia_acc _ _ _ _ _ acc w3 heq2
          subst hacc
          have habs1 : absRows w1 = absRows w := by
            simp [absRows, hdb1, hlog1]
          have : absRows (w3.logAppend
              ⟨wf.create_slices.next_ptr, a.transition_id, a.physical_address,
                a.size % U32⟩ a) = absRows wf ++ [pushProj a] := by
            simp [absRows, DbWriter.logAppend, hdb3, hlog3, entryProj, pushProj,
              DbWriter.create_slices]
          rw [this, habs, habs1]
        · exact (Except.noConfusion h)
        · exact (Except.noConfusion h)

theorem runPushes_abs : ∀ (accs : List MemoryAccess) (w w2 : DbWriter),
    runPushes accs w = .ok w2 → absRows w2 = absRows w ++ accs.map pushProj := by
  intro accs
  induction accs with
  | nil =>
    intro w w2 h
    unfold runPushes at h
    cases h
    simp
  | cons a rest ih =>
    intro w w2 h
    unfold runPushes at h
    split at h
    · rename_i wm hm
      rw [ih wm w2 h, push_abs w a wm hm]
      simp
    · exact (Except.noConfusion h)

/-- End to end: after a successful run of pushes from the initial writer and
a successful take, the projected access rows equal the projected pushes. -/
theorem pushed_rows_eq (accs : List MemoryAccess) (w1 : DbWriter) (db : Db)
    (h1 : runPushes accs DbWriter.initial = .ok w1) (h2 : w1.take = .ok db) :
    db.accesses.map rowProj = accs.map pushProj := by
  unfold DbWriter.take at h2
  split at h2
  · rename_i w2 hflush
    cases h2
    obtain ⟨habs, hlog⟩ := insert_slices_abs w1 w2 hflush
    have hrun := runPushes_abs accs DbWriter.initial w1 h1
    have hinit : absRows DbWriter.initial = [] := rfl
    rw [hrun, hinit, List.nil_append] at habs
    have h3 : absRows w2 = w2.db.accesses.map rowProj := by
      simp [absRows, hlog]
    rw [h3] at habs
    exact habs
  · exact (Except.noConfusion h2)

end WriterLemmas

section ClaimC9

/-- A freshly configured builder (the fixed writer configuration) never
returns the soft refusal: every refusal path needs a raised sticky flag, a
reached access count, an engaged transition limit, or an overlap total above
100000, none of which holds on an empty builder. -/
theorem fixed_insert_not_refused (n t p s : Nat) :
    (({ fixedBuilder with next_id := n }).insert t p s).1 ≠ InsertOutcome.refused := by
  unfold SliceBuilder.insert
  split
  · simp
  · split
    · rename_i h
      exact absurd h.2 (by simp [fixedBuilder, SliceBuilder.init])
    · split
      · rename_i h
        exact absurd h.1 (by simp [SliceBuilder.countHit, fixedBuilder, SliceBuilder.init])
      · split
        · simp
        · split
          · simp
          · split
            · rename_i h
              exact absurd h (by simp [SliceBuilder.tlimitHit, fixedBuilder, SliceBuilder.init])
            · unfold SliceBuilder.insertBody
              split
              · rename_i h
                exact absurd h (by
                  simp [SliceBuilder.overlapHit, SliceBuilder.afterCount, SliceBuilder.countHit,
                    SliceBuilder.setStop, fixedBuilder, SliceBuilder.init, scanOverl, splitAtAddr,
                    splitLastCheck, takeOverlapping, sumSizes, Chunk.mk1, Chunk.size])
              · simp [SliceBuilder.finishInsert]

/-- Recognizer of the logic error thrown by the unreachable branch of push. -/
def isRetryFailure : Except WErr DbWriter → Bool
  | .error .logicRetry => true
  | _ => false

/-- After create_slices, the routed insert cannot be refused. -/
theorem create_slices_insertVia_not_refused (w : DbWriter) (isRead : Bool)
    (t p s : Nat) :
    (w.create_slices.insertVia isRead t p s).1 ≠ InsertOutcome.refused := by
  unfold DbWriter.insertVia DbWriter.create_slices
  split
  · exact fixed_insert_not_refused w.next_ptr t p s
  · exact fixed_insert_not_refused w.next_ptr t p s

/-- C9.  DbWriter::push never fails with the retry logic error: whenever the
first builder insert is refused, the retried insert after flushing and
recreating the fixed-configuration builders either succeeds or throws
InvalidArgument, so the logic-error branch of push is unreachable, for every
writer state and every pushed access. -/
theorem c9_push_never_retry_error (w : DbWriter) (a : MemoryAccess) :
    isRetryFailure (w.push a) = false := by
  unfold DbWriter.push
  split
  · rfl
  · split
    · rfl
    · rfl
    · rename_i w1 heq
      split
      · rename_i e he
        have hne := insert_slices_err w1 e he
        cases e
        · rfl
        · rfl
        · exact absurd rfl hne
        · rfl
        · rfl
      · rename_i wf hflush
        split
        · rfl
        · rename_i x heq2
          have h1 := congrArg (fun y => y.1) heq2
          simp only at h1
          exact ((create_slices_insertVia_not_refused wf _ _ _ _) h1).elim
        · rfl

end ClaimC9

section ClaimsC7C8

/-- C8.  The sequence of rows of the accesses table, after any successful
run of pushes followed by take, equals the sequence of pushed accesses,
projected to (transition, linear, phy_first, size, operation): within each
flush batch rows are emitted in access-log order, and the log is filled in
push order. -/
theorem c8_rows_in_push_order (accs : List MemoryAccess) (w1 : DbWriter) (db : Db)
    (h1 : runPushes accs DbWriter.initial = .ok w1) (h2 : w1.take = .ok db) :
    db.accesses.map rowProj = accs.map pushProj :=
  pushed_rows_eq accs w1 db h1 h2

/-- The pushes of the nullability scenario: one access with a virtual
address, one without. -/
def c7demo : List MemoryAccess :=
  [⟨0, 10, 6666, 10, true, .write⟩, ⟨1, 100, 156, 10, false, .write⟩]

def getOkW (e : Except WErr DbWriter) : DbWriter :=
  match e with
  | .ok w => w
  | .error _ => DbWriter.initial

def getOkDb (e : Except WErr Db) : Db :=
  match e with
  | .ok d => d
  | .error _ => ⟨[], [], []⟩

def c7w : DbWriter := getOkW (runPushes c7demo DbWriter.initial)

def c7db : Db := getOkDb c7w.take

/-- C7.  Every access pushed (with u32 size) during a successful run appears
after the persisting flush as a row of the accesses table whose transition,
phy_first, size and operation equal the pushed fields, and whose linear
column holds the virtual address, or NULL when has_virtual_address was
false. -/
theorem c7_round_trip (accs : List MemoryAccess) (w1 : DbWriter) (db : Db)
    (h1 : runPushes accs DbWriter.initial = .ok w1) (h2 : w1.take = .ok db)
    (a : MemoryAccess) (ha : a ∈ accs) (hs : a.size < U32) :
    ∃ r ∈ db.accesses,
      r.transition = a.transition_id ∧
      r.phy_first = a.physical_address ∧
      r.size = a.size ∧
      r.operation = a.operation.byte ∧
      r.linear = (if a.has_virtual_address then some a.virtual_address else none) := by
  have heq := pushed_rows_eq accs w1 db h1 h2
  have hmem : pushProj a ∈ accs.map pushProj := List.mem_map_of_mem _ ha
  rw [← heq] at hmem
  obtain ⟨r, hr, hrp⟩ := List.mem_map.mp hmem
  simp only [rowProj, pushProj, Prod.mk.injEq] at hrp
  obtain ⟨e1, e2, e3, e4, e5⟩ := hrp
  exact ⟨r, hr, e1, e3, by rw [e4]; exact Nat.mod_eq_of_lt hs, e5, e2⟩

/-- Witness for c7_round_trip: the second pushed access of the nullability
scenario round-trips with a NULL linear column. -/
theorem c7_round_trip_witness :
    (runPushes c7demo DbWriter.initial = .ok c7w ∧ c7w.take = .ok c7db ∧
      (⟨1, 100, 156, 10, false, Operation.write⟩ : MemoryAccess) ∈ c7demo ∧
      (10 : Nat) < U32) ∧
    ∃ r ∈ c7db.accesses,
      r.transition = 1 ∧ r.phy_first = 100 ∧ r.size = 10 ∧
      r.operation = Operation.byte Operation.write ∧ r.linear = none :=
  ⟨⟨rfl, rfl, by decide, by decide⟩,
   c7_round_trip c7demo c7w c7db rfl rfl
     ⟨1, 100, 156, 10, false, Operation.write⟩ (by decide) (by decide)⟩

/-- The pushes of the C8 witness run: a mixed read/write sequence. -/
def c8demo : List MemoryAccess :=
  [⟨0, 10, 6666, 10, true, .write⟩, ⟨0, 10, 7777, 4, true, .read⟩,
   ⟨1, 50, 0, 2, false, .read⟩]

def c8w : DbWriter := getOkW (runPushes c8demo DbWriter.initial)

def c8db : Db := getOkDb c8w.take

/-- Witness for c8_rows_in_push_order at a concrete mixed run. -/
theorem c8_rows_in_push_order_witness :
    (runPushes c8demo DbWriter.initial = .ok c8w ∧ c8w.take = .ok c8db) ∧
    c8db.accesses.map rowProj = c8demo.map pushProj :=
  ⟨⟨rfl, rfl⟩,
   c8_rows_in_push_order c8demo c8w c8db rfl rfl⟩

end ClaimsC7C8

section ClaimC6Amended

theorem setFirstIfEmpty_tlim (b : SliceBuilder) (t : Nat) :
    (b.setFirstIfEmpty t).transition_limit = b.transition_limit := by
  unfold SliceBuilder.setFirstIfEmpty
  split <;> rfl

/-- The transition-limit expression evaluates to 1 when the two transitions
coincide, whatever their value. -/
theorem u64SubAddOne_self (t : Nat) : u64SubAddOne t t = 1 := by
  unfold u64SubAddOne U64
  omega

/-- The reachability invariant behind the sticky-saturation claim: on every
builder whose chunk map is non-empty, the u64 length expression of the
transition-limit test, taken at transition_last, respects an engaged
transition limit of at least 1. -/
def BuilderInvJ (b : SliceBuilder) : Prop :=
  b.slice.access_chunks ≠ [] →
    ∀ l, b.transition_limit = some l → 1 ≤ l →
      u64SubAddOne b.slice.transition_last b.slice.transition_first ≤ l

theorem afterCount_J (b : SliceBuilder) (hJ : BuilderInvJ b) :
    BuilderInvJ b.afterCount := by
  intro hne l hl hl1
  rw [afterCount_slice] at hne ⊢
  rw [afterCount_tlim] at hl
  exact hJ hne l hl hl1

theorem setFirstIfEmpty_J (b : SliceBuilder) (t : Nat) (hJ : BuilderInvJ b) :
    BuilderInvJ (b.setFirstIfEmpty t) := by
  intro hne l hl hl1
  rw [setFirstIfEmpty_chunks] at hne
  rw [setFirstIfEmpty_tlim] at hl
  rw [setFirstIfEmpty_last, setFirstIfEmpty_first_ne b t hne]
  exact hJ hne l hl hl1

/-- The invariant is preserved by every insert call. -/
theorem insert_J (b : SliceBuilder) (t a s : Nat) (hJ : BuilderInvJ b) :
    BuilderInvJ (b.insert t a s).2 := by
  unfold SliceBuilder.insert
  split
  · exact hJ
  · split
    · exact hJ
    · split
      · exact hJ
      · split
        · exact afterCount_J b hJ
        · split
          · exact afterCount_J b hJ
          · split
            · exact afterCount_J b hJ
            · rename_i h6
              unfold SliceBuilder.insertBody
              have hcore : ∀ X : SliceBuilder,
                  X = (b.afterCount.setFirstIfEmpty t).setStop ∨
                  X = b.afterCount.setFirstIfEmpty t →
                  ∀ acc ac overl rem,
                  BuilderInvJ (X.finishInsert acc ac overl rem t).2 := by
                rintro X hX acc ac overl rem hne l hl hl1
                have hXtl : X.transition_limit = b.transition_limit := by
                  rcases hX with rfl | rfl
                  · show (b.afterCount.setFirstIfEmpty t).transition_limit = _
                    rw [setFirstIfEmpty_tlim, afterCount_tlim]
                  · rw [setFirstIfEmpty_tlim, afterCount_tlim]
                have hXfirst : X.slice.transition_first =
                    (b.afterCount.setFirstIfEmpty t).slice.transition_first := by
                  rcases hX with rfl | rfl
                  · rfl
                  · rfl
                have hl2 : b.transition_limit = some l := by
                  rw [← hXtl]
                  exact hl
                have hlast : ((X.finishInsert acc ac overl rem t).2).slice.transition_last
                    = t := rfl
                have hfirst : ((X.finishInsert acc ac overl rem t).2).slice.transition_first
                    = X.slice.transition_first := rfl
                rw [hlast, hfirst, hXfirst]
                by_cases hc : b.slice.access_chunks = []
                · have hc2 : b.afterCount.slice.access_chunks = [] := by
                    rw [afterCount_slice]
                    exact hc
                  have : (b.afterCount.setFirstIfEmpty t).slice.transition_first = t := by
                    unfold SliceBuilder.setFirstIfEmpty
                    rw [if_pos hc2]
                  rw [this, u64SubAddOne_self]
                  exact hl1
                · have hc2 : b.afterCount.slice.access_chunks ≠ [] := by
                    rw [afterCount_slice]
                    exact hc
                  rw [setFirstIfEmpty_first_ne _ _ hc2, afterCount_slice]
                  -- the transition-limit test has not refused
                  unfold SliceBuilder.tlimitHit at h6
                  rw [hl2] at h6
                  simp only [Bool.and_eq_true, decide_eq_true_eq, not_and, not_lt] at h6
                  exact h6 hc
              split
              · split
                · exact setFirstIfEmpty_J b.afterCount t (afterCount_J b hJ)
                · exact hcore _ (Or.inl rfl) _ _ _ _
              · exact hcore _ (Or.inr rfl) _ _ _ _

theorem insert_tlim (b : SliceBuilder) (t a s : Nat) :
    (b.insert t a s).2.transition_limit = b.transition_limit := by
  unfold SliceBuilder.insert
  split
  · rfl
  · split
    · rfl
    · split
      · rfl
      · split
        · exact afterCount_tlim b
        · split
          · exact afterCount_tlim b
          · split
            · exact afterCount_tlim b
            · unfold SliceBuilder.insertBody
              split
              · split
                · show (b.afterCount.setFirstIfEmpty t).transition_limit = _
                  rw [setFirstIfEmpty_tlim, afterCount_tlim]
                · show (b.afterCount.setFirstIfEmpty t).transition_limit = _
                  rw [setFirstIfEmpty_tlim, afterCount_tlim]
              · show (b.afterCount.setFirstIfEmpty t).transition_limit = _
                rw [setFirstIfEmpty_tlim, afterCount_tlim]

theorem runInserts_J : ∀ (ins : List (Nat × Nat × Nat)) (b : SliceBuilder),
    BuilderInvJ b → BuilderInvJ (runInserts ins b).1 := by
  intro ins
  induction ins with
  | nil => intro b hJ; exact hJ
  | cons i rest ih =>
    intro b hJ
    rcases i with ⟨t, a, s⟩
    unfold runInserts
    have h2 := ih (b.insert t a s).2 (insert_J b t a s hJ)
    split <;> exact h2

theorem runInserts_tlim : ∀ (ins : List (Nat × Nat × Nat)) (b : SliceBuilder),
    (runInserts ins b).1.transition_limit = b.transition_limit := by
  intro ins
  induction ins with
  | nil => intro b; rfl
  | cons i rest ih =>
    intro b
    rcases i with ⟨t, a, s⟩
    unfold runInserts
    have h2 : (runInserts rest (b.insert t a s).2).1.transition_limit
        = b.transition_limit := by
      rw [ih, insert_tlim]
    split <;> exact h2

/-- C6, amended.  On every builder state reached by a run of inserts whose
transition limit is unset or at least 1, once the sticky flag is raised
(i.e. a soft cap was exceeded at the current transition), an insert at
transition_last with nonzero, non-wrapping arguments is still accepted,
while every insert at a larger transition with nonzero size is refused.
With transition_limit = 0 the first part fails, as the counterexample
shows. -/
theorem c6_amended (ins : List (Nat × Nat × Nat)) (tc ov tl al : Option Nat)
    (s : SliceBuilder) (a2 sz : Nat)
    (hrun : s = (runInserts ins (SliceBuilder.init tc ov tl al)).1)
    (htl : ∀ l, tl = some l → 1 ≤ l)
    (hstop : s.stop_at_next_transition = true)
    (hsz : sz ≠ 0) (hwrap : wrapsU64 a2 sz = false) :
    (∃ acc, (s.insert s.slice.transition_last a2 sz).1 = InsertOutcome.inserted acc) ∧
    (∀ t2 a3 s3, t2 > s.slice.transition_last → s3 ≠ 0 →
      (s.insert t2 a3 s3).1 = InsertOutcome.refused) := by
  have hJ : BuilderInvJ s := by
    rw [hrun]
    exact runInserts_J ins _ (fun hne => absurd rfl hne)
  have htlim : s.transition_limit = tl := by
    rw [hrun, runInserts_tlim]
    rfl
  constructor
  · have c2 : ¬(s.slice.transition_last > s.slice.transition_last ∧
        s.stop_at_next_transition = true) := fun h => lt_irrefl _ h.1
    have c3 : ¬(s.countHit = true ∧
        s.slice.transition_last > s.slice.transition_last) := fun h => lt_irrefl _ h.2
    have c4 : ¬(wrapsU64 a2 sz = true) := by
      rw [hwrap]
      exact Bool.false_ne_true
    have c5 : ¬(s.slice.access_chunks ≠ [] ∧
        s.slice.transition_last < s.slice.transition_last) := fun h => lt_irrefl _ h.2
    have c6c : ¬(s.tlimitHit s.slice.transition_last = true) := by
      intro hcontra
      unfold SliceBuilder.tlimitHit at hcontra
      rw [htlim] at hcontra
      cases tl with
      | none => exact Bool.false_ne_true hcontra
      | some l =>
        simp only [Bool.and_eq_true, decide_eq_true_eq] at hcontra
        exact absurd (hJ hcontra.1 l htlim (htl l rfl))
          (not_le.mpr hcontra.2)
    unfold SliceBuilder.insert
    rw [if_neg hsz, if_neg c2, if_neg c3, if_neg c4, if_neg c5, if_neg c6c]
    unfold SliceBuilder.insertBody
    split
    · split
      · rename_i hgt
        rw [afterCount_slice] at hgt
        exact absurd hgt (lt_irrefl _)
      · exact ⟨_, rfl⟩
    · exact ⟨_, rfl⟩
  · intro t2 a3 s3 ht2 hs3
    unfold SliceBuilder.insert
    rw [if_neg hs3, if_pos (And.intro ht2 hstop)]

/-- The reachable flagged state of the c6_amended witness: access count
limit 1, no transition limit, two accesses at transition 0. -/
def c6reach : SliceBuilder :=
  (runInserts [(0, 0, 1), (0, 5, 1)] (SliceBuilder.init none none none (some 1))).1

/-- Witness for c6_amended at the concrete flagged state c6reach. -/
theorem c6_amended_witness :
    (c6reach.stop_at_next_transition = true ∧ (1 : Nat) ≠ 0 ∧
      wrapsU64 7 1 = false) ∧
    ((∃ acc, (c6reach.insert c6reach.slice.transition_last 7 1).1 =
        InsertOutcome.inserted acc) ∧
      (∀ t2 a3 s3, t2 > c6reach.slice.transition_last → s3 ≠ 0 →
        (c6reach.insert t2 a3 s3).1 = InsertOutcome.refused)) :=
  ⟨⟨by decide, by decide, by decide⟩,
   c6_amended [(0, 0, 1), (0, 5, 1)] none none none (some 1) c6reach 7 1 rfl
     (fun l h => Option.noConfusion h) (by decide) (by decide) (by decide)⟩

end ClaimC6Amended

section SliceInvariant

/-- A well-formed chunk: a non-empty inclusive interval whose successor of
address_last still fits in u64 (so overlaps and is_contiguous do not wrap). -/
def WFChunk (c : Chunk) : Prop :=
  c.address_first ≤ c.address_last ∧ c.address_last + 1 < U64

/-- Strict address ordering of chunks: the left one ends before the right
one starts. -/
def ChunkOrd (a b : Chunk) : Prop := a.address_last < b.address_first

/-- The invariant of the chunk map: address-ordered pairwise-disjoint
well-formed chunks. -/
def ChunksInv (l : List Chunk) : Prop :=
  List.Pairwise ChunkOrd l ∧ ∀ c ∈ l, WFChunk c

/-- An insert argument triple whose chunk is well formed: positive size
below the u32 narrowing bound, with a range that stays below u64::MAX. -/
def GoodInput (i : Nat × Nat × Nat) : Prop :=
  0 < i.2.2 ∧ i.2.2 < U32 ∧ i.2.1 + i.2.2 < U64

instance (i : Nat × Nat × Nat) : Decidable (GoodInput i) := by
  unfold GoodInput
  exact inferInstance

theorem chunkOrd_disjoint (a b : Chunk) (h : ChunkOrd a b) : ChunkDisjoint a b :=
  Or.inl h

/-- For well-formed chunks, overlaps decides interval intersection. -/
theorem overlaps_iff (c d : Chunk) (hc : WFChunk c) (hd : WFChunk d) :
    c.overlaps d = true ↔
      (d.address_first ≤ c.address_last ∧ c.address_first ≤ d.address_last) := by
  unfold Chunk.overlaps
  rw [Nat.mod_eq_of_lt hc.2, Nat.mod_eq_of_lt hd.2]
  simp only [Bool.not_eq_eq_eq_not, Bool.not_true, Bool.or_eq_false_iff,
    decide_eq_false_iff_not, not_le]
  omega

theorem mk1_first (nid t a s : Nat) : (Chunk.mk1 nid t a s).address_first = a := rfl

theorem mk1_last (nid t a s : Nat) (hg : GoodInput (t, a, s)) :
    (Chunk.mk1 nid t a s).address_last = a + s - 1 := by
  obtain ⟨h1, h2, h3⟩ := hg
  simp only at h1 h2 h3
  show (a + s % U32 + (U64 - 1)) % U64 = a + s - 1
  unfold U32 at h2 ⊢
  unfold U64 at h3 ⊢
  omega

theorem mk1_WF (nid t a s : Nat) (hg : GoodInput (t, a, s)) :
    WFChunk (Chunk.mk1 nid t a s) := by
  obtain ⟨h1, h2, h3⟩ := hg
  simp only at h1 h2 h3
  constructor
  · rw [mk1_first, mk1_last nid t a s ⟨h1, h2, h3⟩]
    omega
  · rw [mk1_last nid t a s ⟨h1, h2, h3⟩]
    omega

theorem mk1_accesses (nid t a s : Nat) :
    (Chunk.mk1 nid t a s).accesses = [⟨nid, t, a, s % U32⟩] := rfl

theorem splitAtAddr_append (a : Nat) :
    ∀ l : List Chunk, (splitAtAddr a l).1 ++ (splitAtAddr a l).2 = l := by
  intro l
  induction l with
  | nil => rfl
  | cons c rest ih =>
    unfold splitAtAddr
    split
    · simpa using ih
    · rfl

theorem splitAtAddr_left (a : Nat) :
    ∀ l : List Chunk, ∀ c ∈ (splitAtAddr a l).1, c.address_first ≤ a := by
  intro l
  induction l with
  | nil => intro c hc; cases hc
  | cons x rest ih =>
    intro c hc
    unfold splitAtAddr at hc
    split at hc
    · rcases List.mem_cons.mp hc with rfl | hc2
      · assumption
      · exact ih c hc2
    · cases hc

theorem splitAtAddr_right_head (a : Nat) :
    ∀ l : List Chunk, (splitAtAddr a l).2 = [] ∨
      ∃ q qs, (splitAtAddr a l).2 = q :: qs ∧ a < q.address_first := by
  intro l
  induction l with
  | nil => exact Or.inl rfl
  | cons x rest ih =>
    unfold splitAtAddr
    split
    · simpa using ih
    · rename_i h
      exact Or.inr ⟨x, rest, rfl, by omega⟩

theorem splitLastCheck_cases (ac : Chunk) :
    ∀ le : List Chunk,
      ((splitLastCheck ac le).2 = [] ∧ (splitLastCheck ac le).1 = le ∧
        (le = [] ∨ ∃ p pre, le = pre ++ [p] ∧ p.overlaps ac = false)) ∨
      (∃ p, (splitLastCheck ac le).2 = [p] ∧
        (splitLastCheck ac le).1 ++ [p] = le ∧ p.overlaps ac = true) := by
  intro le
  induction le with
  | nil => exact Or.inl ⟨rfl, rfl, Or.inl rfl⟩
  | cons c rest ih =>
    cases rest with
    | nil =>
      unfold splitLastCheck
      split
      · rename_i h
        exact Or.inr ⟨c, rfl, rfl, h⟩
      · rename_i h
        exact Or.inl ⟨rfl, rfl, Or.inr ⟨c, [], rfl, by
          rcases Bool.eq_false_or_eq_true (c.overlaps ac) with h2 | h2
          · exact absurd h2 h
          · exact h2⟩⟩
    | cons c2 rest2 =>
      rcases ih with ⟨h1, h2, h3⟩ | ⟨p, h1, h2, h3⟩
      · refine Or.inl ⟨?_, ?_, ?_⟩
        · show (splitLastCheck ac (c2 :: rest2)).2 = []
          exact h1
        · show c :: (splitLastCheck ac (c2 :: rest2)).1 = c :: c2 :: rest2
          rw [h2]
        · rcases h3 with h3 | ⟨p, pre, hpre, hov⟩
          · cases h3
          · exact Or.inr ⟨p, c :: pre, by rw [hpre, List.cons_append], hov⟩
      · refine Or.inr ⟨p, ?_, ?_, h3⟩
        · show (splitLastCheck ac (c2 :: rest2)).2 = [p]
          exact h1
        · show c :: (splitLastCheck ac (c2 :: rest2)).1 ++ [p] = c :: c2 :: rest2
          rw [List.cons_append, h2]

theorem takeOverlapping_append (ac : Chunk) :
    ∀ l : List Chunk, (takeOverlapping ac l).1 ++ (takeOverlapping ac l).2 = l := by
  intro l
  induction l with
  | nil => rfl
  | cons c rest ih =>
    unfold takeOverlapping
    split
    · simpa using ih
    · rfl

theorem takeOverlapping_all (ac : Chunk) :
    ∀ l : List Chunk, ∀ c ∈ (takeOverlapping ac l).1, c.overlaps ac = true := by
  intro l
  induction l with
  | nil => intro c hc; cases hc
  | cons x rest ih =>
    intro c hc
    unfold takeOverlapping at hc
    split at hc
    · rcases List.mem_cons.mp hc with rfl | hc2
      · assumption
      · exact ih c hc2
    · cases hc

theorem takeOverlapping_head (ac : Chunk) :
    ∀ l : List Chunk, (takeOverlapping ac l).2 = [] ∨
      ∃ q qs, (takeOverlapping ac l).2 = q :: qs ∧ q.overlaps ac = false := by
  intro l
  induction l with
  | nil => exact Or.inl rfl
  | cons x rest ih =>
    unfold takeOverlapping
    split
    · simpa using ih
    · rename_i h
      exact Or.inr ⟨x, rest, rfl, Bool.not_eq_true _ ▸ h⟩

theorem foldl_merge_first_le :
    ∀ (l : List Chunk) (c : Chunk),
      (l.foldl Chunk.merge_in c).address_first ≤ c.address_first := by
  intro l
  induction l with
  | nil => intro c; exact le_refl _
  | cons o rest ih =>
    intro c
    calc ((o :: rest).foldl Chunk.merge_in c).address_first
        = (rest.foldl Chunk.merge_in (c.merge_in o)).address_first := rfl
      _ ≤ (c.merge_in o).address_first := ih _
      _ ≤ c.address_first := min_le_left _ _

theorem foldl_merge_first_mem :
    ∀ (l : List Chunk) (c : Chunk),
      (l.foldl Chunk.merge_in c).address_first = c.address_first ∨
      ∃ o ∈ l, (l.foldl Chunk.merge_in c).address_first = o.address_first := by
  intro l
  induction l with
  | nil => intro c; exact Or.inl rfl
  | cons o rest ih =>
    intro c
    have h0 : ((o :: rest).foldl Chunk.merge_in c) =
        rest.foldl Chunk.merge_in (c.merge_in o) := rfl
    rw [h0]
    rcases ih (c.merge_in o) with h | ⟨o2, ho2, h⟩
    · have hmin : (c.merge_in o).address_first = c.address_first ∨
          (c.merge_in o).address_first = o.address_first := by
        unfold Chunk.merge_in
        simp only
        rcases le_total c.address_first o.address_first with h2 | h2
        · exact Or.inl (min_eq_left h2)
        · exact Or.inr (min_eq_right h2)
      rcases hmin with h2 | h2
      · exact Or.inl (h.trans h2)
      · exact Or.inr ⟨o, List.mem_cons_self o rest, h.trans h2⟩
    · exact Or.inr ⟨o2, List.mem_cons_of_mem o ho2, h⟩

theorem foldl_merge_last_ge :
    ∀ (l : List Chunk) (c : Chunk),
      c.address_last ≤ (l.foldl Chunk.merge_in c).address_last := by
  intro l
  induction l with
  | nil => intro c; exact le_refl _
  | cons o rest ih =>
    intro c
    calc c.address_last ≤ (c.merge_in o).address_last := le_max_left _ _
      _ ≤ (rest.foldl Chunk.merge_in (c.merge_in o)).address_last := ih _

theorem foldl_merge_last_mem :
    ∀ (l : List Chunk) (c : Chunk),
      (l.foldl Chunk.merge_in c).address_last = c.address_last ∨
      ∃ o ∈ l, (l.foldl Chunk.merge_in c).address_last = o.address_last := by
  intro l
  induction l with
  | nil => intro c; exact Or.inl rfl
  | cons o rest ih =>
    intro c
    have h0 : ((o :: rest).foldl Chunk.merge_in c) =
        rest.foldl Chunk.merge_in (c.merge_in o) := rfl
    rw [h0]
    rcases ih (c.merge_in o) with h | ⟨o2, ho2, h⟩
    · have hmax : (c.merge_in o).address_last = c.address_last ∨
          (c.merge_in o).address_last = o.address_last := by
        unfold Chunk.merge_in
        simp only
        rcases le_total c.address_last o.address_last with h2 | h2
        · exact Or.inr (max_eq_right h2)
        · exact Or.inl (max_eq_left h2)
      rcases hmax with h2 | h2
      · exact Or.inl (h.trans h2)
      · exact Or.inr ⟨o, List.mem_cons_self o rest, h.trans h2⟩
    · exact Or.inr ⟨o2, List.mem_cons_of_mem o ho2, h⟩

theorem foldl_merge_accesses :
    ∀ (l : List Chunk) (c : Chunk),
      (l.foldl Chunk.merge_in c).accesses = c.accesses ++ (l.map Chunk.accesses).flatten := by
  intro l
  induction l with
  | nil => intro c; simp
  | cons o rest ih =>
    intro c
    have h0 : ((o :: rest).foldl Chunk.merge_in c) =
        rest.foldl Chunk.merge_in (c.merge_in o) := rfl
    rw [h0, ih]
    show c.accesses ++ o.accesses ++ _ = _
    simp [List.append_assoc]

theorem mem_mapInsert (m : Chunk) :
    ∀ (l : List Chunk) (c : Chunk), c ∈ (mapInsert m l).2 → c = m ∨ c ∈ l := by
  intro l
  induction l with
  | nil =>
    intro c hc
    rcases List.mem_singleton.mp hc with rfl
    exact Or.inl rfl
  | cons x rest ih =>
    intro c hc
    unfold mapInsert at hc
    split at hc
    · rcases List.mem_cons.mp hc with rfl | hc2
      · exact Or.inl rfl
      · exact Or.inr hc2
    · split at hc
      · exact Or.inr hc
      · rcases List.mem_cons.mp hc with rfl | hc2
        · exact Or.inr (List.mem_cons_self _ _)
        · rcases ih c hc2 with h | h
          · exact Or.inl h
          · exact Or.inr (List.mem_cons_of_mem _ h)

/-- All elements of a chain-ordered well-formed list lie strictly above any
strict lower bound of the head. -/
theorem head_lb (x : Nat) :
    ∀ (q : Chunk) (qs : List Chunk), List.Pairwise ChunkOrd (q :: qs) →
      (∀ c ∈ q :: qs, WFChunk c) → x < q.address_first →
      ∀ c ∈ q :: qs, x < c.address_first := by
  intro q qs hp hw hx c hc
  rcases List.mem_cons.mp hc with rfl | hc2
  · exact hx
  · have h1 : ChunkOrd q c := (List.pairwise_cons.mp hp).1 c hc2
    have h2 : WFChunk q := hw q (List.mem_cons_self _ _)
    unfold ChunkOrd at h1
    unfold WFChunk at h2
    omega

theorem mapInsert_pairwise (m : Chunk) :
    ∀ (l : List Chunk), WFChunk m → (∀ c ∈ l, WFChunk c) →
      List.Pairwise ChunkOrd l → (∀ c ∈ l, ChunkOrd c m ∨ ChunkOrd m c) →
      List.Pairwise ChunkOrd (mapInsert m l).2 := by
  intro l
  induction l with
  | nil =>
    intro _ _ _ _
    exact List.pairwise_singleton _ _
  | cons x rest ih =>
    intro hm hw hp hd
    unfold mapInsert
    split
    · rename_i hlt
      refine List.pairwise_cons.mpr ⟨?_, hp⟩
      intro y hy
      have hwx : WFChunk x := hw x (List.mem_cons_self _ _)
      rcases List.mem_cons.mp hy with rfl | hy2
      · rcases hd y (List.mem_cons_self _ _) with h | h
        · unfold ChunkOrd at h ⊢
          unfold WFChunk at hwx
          omega
        · exact h
      · rcases hd y (List.mem_cons_of_mem _ hy2) with h | h
        · have hxy : ChunkOrd x y := (List.pairwise_cons.mp hp).1 y hy2
          have hwy : WFChunk y := hw y (List.mem_cons_of_mem _ hy2)
          unfold ChunkOrd at h hxy ⊢
          unfold WFChunk at hwx hwy
          omega
        · exact h
    · split
      · exact hp
      · rename_i hlt heq
        refine List.pairwise_cons.mpr ⟨?_, ?_⟩
        · intro y hy
          rcases mem_mapInsert m rest y hy with rfl | hy2
          · rcases hd x (List.mem_cons_self _ _) with h | h
            · exact h
            · unfold ChunkOrd at h
              unfold WFChunk at hm
              omega
          · exact (List.pairwise_cons.mp hp).1 y hy2
        · exact ih hm (fun c hc => hw c (List.mem_cons_of_mem _ hc))
            (List.pairwise_cons.mp hp).2
            (fun c hc => hd c (List.mem_cons_of_mem _ hc))

theorem mapInsert_perm (m : Chunk) :
    ∀ (l : List Chunk), WFChunk m → (∀ c ∈ l, WFChunk c) →
      (∀ c ∈ l, ChunkOrd c m ∨ ChunkOrd m c) →
      List.Perm (mapInsert m l).2 (m :: l) := by
  intro l
  induction l with
  | nil => intro _ _ _; exact List.Perm.refl _
  | cons x rest ih =>
    intro hm hw hd
    unfold mapInsert
    split
    · exact List.Perm.refl _
    · split
      · rename_i hlt heq
        have hwx : WFChunk x := hw x (List.mem_cons_self _ _)
        rcases hd x (List.mem_cons_self _ _) with h | h
        · unfold ChunkOrd at h
          unfold WFChunk at hwx
          omega
        · unfold ChunkOrd at h
          unfold WFChunk at hm
          omega
      · have hperm := ih hm (fun c hc => hw c (List.mem_cons_of_mem _ hc))
          (fun c hc => hd c (List.mem_cons_of_mem _ hc))
        exact List.Perm.trans (hperm.cons x) (List.Perm.swap m x rest)

/-- The central geometry of one insertion: on an invariant-satisfying chunk
map, the merged chunk is well formed, the untouched chunks keep the
invariant, and every untouched chunk is strictly on one side of the merged
chunk.  This is where the completeness of the neighbour scan is proved: the
predecessor test plus the forward run find every chunk that intersects the
new access, so the remaining chunks are disjoint from the convex hull. -/
theorem scan_facts (ac : Chunk) (a : Nat) (chunks : List Chunk)
    (hfst : ac.address_first = a) (hw : WFChunk ac) (hinv : ChunksInv chunks) :
    WFChunk (List.foldl Chunk.merge_in ac (scanOverl ac a chunks)) ∧
    (∀ c ∈ scanKept ac a chunks, WFChunk c) ∧
    List.Pairwise ChunkOrd (scanKept ac a chunks) ∧
    (∀ c ∈ scanKept ac a chunks,
      ChunkOrd c (List.foldl Chunk.merge_in ac (scanOverl ac a chunks)) ∨
      ChunkOrd (List.foldl Chunk.merge_in ac (scanOverl ac a chunks)) c) := by
  obtain ⟨hp, hwall⟩ := hinv
  unfold scanOverl scanKept
  set le := (splitAtAddr a chunks).1 with hledef
  set gt := (splitAtAddr a chunks).2 with hgtdef
  set keptL := (splitLastCheck ac le).1 with hkLdef
  set prevL := (splitLastCheck ac le).2 with hpLdef
  set fwd := (takeOverlapping ac gt).1 with hfdef
  set keptR := (takeOverlapping ac gt).2 with hkRdef
  have hchunks : le ++ gt = chunks := splitAtAddr_append a chunks
  have hgt_app : fwd ++ keptR = gt := takeOverlapping_append ac gt
  have hleF : ∀ c ∈ le, c.address_first ≤ a := splitAtAddr_left a chunks
  have hpw : List.Pairwise ChunkOrd (le ++ gt) := by rw [hchunks]; exact hp
  obtain ⟨hpLe, hpGt, hcross⟩ := List.pairwise_append.mp hpw
  have hwle : ∀ c ∈ le, WFChunk c := fun c hc =>
    hwall c (by rw [← hchunks]; exact List.mem_append_left _ hc)
  have hwgt : ∀ c ∈ gt, WFChunk c := fun c hc =>
    hwall c (by rw [← hchunks]; exact List.mem_append_right _ hc)
  have hgtF : ∀ c ∈ gt, a < c.address_first := by
    rcases splitAtAddr_right_head a chunks with h | ⟨q, qs, hq, hqa⟩
    · intro c hc
      rw [show gt = [] from h] at hc
      cases hc
    · have hq2 : gt = q :: qs := hq
      rw [hq2]
      exact head_lb a q qs (hq2 ▸ hpGt) (fun c hc => hwgt c (hq2 ▸ hc)) hqa
  obtain ⟨hpFwd, hpKR, hcrossG⟩ := List.pairwise_append.mp
    (show List.Pairwise ChunkOrd (fwd ++ keptR) by rw [hgt_app]; exact hpGt)
  have hfwdgt : ∀ o ∈ fwd, o ∈ gt := fun o ho => by
    rw [← hgt_app]
    exact List.mem_append_left _ ho
  have hkRgt : ∀ c ∈ keptR, c ∈ gt := fun c hc => by
    rw [← hgt_app]
    exact List.mem_append_right _ hc
  have hprevle : ∀ o ∈ prevL, o ∈ le := by
    intro o ho
    rcases splitLastCheck_cases ac le with ⟨h1, _, _⟩ | ⟨p, h1, h2, _⟩
    · rw [show prevL = [] from h1] at ho
      cases ho
    · rw [show prevL = [p] from h1] at ho
      rcases List.mem_singleton.mp ho with rfl
      rw [← show keptL ++ [o] = le from h2]
      exact List.mem_append_right _ (List.mem_singleton_self _)
  have hkLle : ∀ c ∈ keptL, c ∈ le := by
    intro c hc
    rcases splitLastCheck_cases ac le with ⟨_, h2, _⟩ | ⟨p, _, h2, _⟩
    · rw [← show keptL = le from h2]
      exact hc
    · rw [← show keptL ++ [p] = le from h2]
      exact List.mem_append_left _ hc
  have hprev_cross : ∀ c ∈ keptL, ∀ o ∈ prevL, ChunkOrd c o := by
    intro c hc o ho
    rcases splitLastCheck_cases ac le with ⟨h1, _, _⟩ | ⟨p, h1, h2, _⟩
    · rw [show prevL = [] from h1] at ho
      cases ho
    · rw [show prevL = [p] from h1] at ho
      rcases List.mem_singleton.mp ho with rfl
      have hple : List.Pairwise ChunkOrd (keptL ++ [o]) := by
        rw [show keptL ++ [o] = le from h2]
        exact hpLe
      exact (List.pairwise_append.mp hple).2.2 c hc o (List.mem_singleton_self _)
  have hKLa : ∀ c ∈ keptL, c.address_last < a := by
    rcases splitLastCheck_cases ac le with ⟨h1, h2, hcase⟩ | ⟨p, h1, h2, hpov⟩
    · rcases hcase with hle0 | ⟨p, pre, hle_eq, hpov⟩
      · intro c hc
        rw [show keptL = le from h2, hle0] at hc
        cases hc
      · intro c hc
        rw [show keptL = le from h2, hle_eq] at hc
        have hpmem : p ∈ le := by
          rw [hle_eq]
          exact List.mem_append_right _ (List.mem_singleton_self _)
        have hpfa : p.address_first ≤ a := hleF p hpmem
        rcases List.mem_append.mp hc with hc2 | hc2
        · have hple : List.Pairwise ChunkOrd (pre ++ [p]) := by
            rw [← hle_eq]
            exact hpLe
          have hcp : ChunkOrd c p :=
            (List.pairwise_append.mp hple).2.2 c hc2 p (List.mem_singleton_self _)
          unfold ChunkOrd at hcp
          omega
        · rcases List.mem_singleton.mp hc2 with rfl
          have hnov : ¬(c.overlaps ac = true) := by
            rw [hpov]
            exact Bool.false_ne_true
          rw [overlaps_iff c ac (hwle c hpmem) hw] at hnov
          have hwc : WFChunk c := hwle c hpmem
          unfold WFChunk at hw hwc
          rw [hfst] at hnov
          rcases not_and_or.mp hnov with h3 | h3 <;> omega
    · intro c hc
      have hpmem : p ∈ le := by
        rw [← show keptL ++ [p] = le from h2]
        exact List.mem_append_right _ (List.mem_singleton_self _)
      have hpfa : p.address_first ≤ a := hleF p hpmem
      have hcp : ChunkOrd c p := hprev_cross c hc p (by
        rw [show prevL = [p] from h1]
        exact List.mem_singleton_self _)
      unfold ChunkOrd at hcp
      omega
  have hKLov : ∀ c ∈ keptL, ∀ o ∈ prevL ++ fwd, c.address_last < o.address_first := by
    intro c hc o ho
    rcases List.mem_append.mp ho with ho2 | ho2
    · exact hprev_cross c hc o ho2
    · exact hcross c (hkLle c hc) o (hfwdgt o ho2)
  have hKRbound : ∀ c ∈ keptR, ac.address_last < c.address_first := by
    rcases takeOverlapping_head ac gt with h | ⟨q, qs, hq, hqov⟩
    · intro c hc
      rw [show keptR = [] from h] at hc
      cases hc
    · have hq2 : keptR = q :: qs := hq
      have hqgt : q ∈ gt := hkRgt q (by rw [hq2]; exact List.mem_cons_self _ _)
      have hqa : a < q.address_first := hgtF q hqgt
      have hwq : WFChunk q := hwgt q hqgt
      have hnov : ¬(q.overlaps ac = true) := by
        rw [hqov]
        exact Bool.false_ne_true
      rw [overlaps_iff q ac hwq hw] at hnov
      have hql : ac.address_last < q.address_first := by
        unfold WFChunk at hwq hw
        rw [hfst] at hnov
        rcases not_and_or.mp hnov with h3 | h3 <;> omega
      rw [hq2]
      exact head_lb ac.address_last q qs (hq2 ▸ hpKR)
        (fun c hc => hwgt c (hkRgt c (hq2 ▸ hc))) hql
  have hOvKR : ∀ o ∈ prevL ++ fwd, ∀ c ∈ keptR, o.address_last < c.address_first := by
    intro o ho c hc
    rcases List.mem_append.mp ho with ho2 | ho2
    · exact hcross o (hprevle o ho2) c (hkRgt c hc)
    · exact hcrossG o ho2 c hc
  have hovWF : ∀ o ∈ prevL ++ fwd, WFChunk o := by
    intro o ho
    rcases List.mem_append.mp ho with ho2 | ho2
    · exact hwle o (hprevle o ho2)
    · exact hwgt o (hfwdgt o ho2)
  have hmergedWF : WFChunk (List.foldl Chunk.merge_in ac (prevL ++ fwd)) := by
    constructor
    · have h1 := foldl_merge_first_le (prevL ++ fwd) ac
      have h2 := foldl_merge_last_ge (prevL ++ fwd) ac
      unfold WFChunk at hw
      omega
    · rcases foldl_merge_last_mem (prevL ++ fwd) ac with h | ⟨o, ho, h⟩
      · rw [h]
        exact hw.2
      · rw [h]
        exact (hovWF o ho).2
  refine ⟨hmergedWF, ?_, ?_, ?_⟩
  · intro c hc
    rcases List.mem_append.mp hc with hc2 | hc2
    · exact hwle c (hkLle c hc2)
    · exact hwgt c (hkRgt c hc2)
  · refine List.pairwise_append.mpr ⟨?_, hpKR, ?_⟩
    · rcases splitLastCheck_cases ac le with ⟨_, h2, _⟩ | ⟨p, _, h2, _⟩
      · rw [show keptL = le from h2]
        exact hpLe
      · exact (List.pairwise_append.mp (by
          rw [show keptL ++ [p] = le from h2]
          exact hpLe)).1
    · intro c hc d hd
      exact hcross c (hkLle c hc) d (hkRgt d hd)
  · intro c hc
    rcases List.mem_append.mp hc with hc2 | hc2
    · refine Or.inl ?_
      show c.address_last < _
      rcases foldl_merge_first_mem (prevL ++ fwd) ac with h | ⟨o, ho, h⟩
      · rw [h, hfst]
        exact hKLa c hc2
      · rw [h]
        exact hKLov c hc2 o ho
    · refine Or.inr ?_
      show _ < c.address_first
      rcases foldl_merge_last_mem (prevL ++ fwd) ac with h | ⟨o, ho, h⟩
      · rw [h]
        exact hKRbound c hc2
      · rw [h]
        exact hOvKR o ho c hc2

theorem splitLastCheck_append (ac : Chunk) (le : List Chunk) :
    (splitLastCheck ac le).1 ++ (splitLastCheck ac le).2 = le := by
  rcases splitLastCheck_cases ac le with ⟨h1, h2, _⟩ | ⟨p, h1, h2, _⟩
  · rw [h1, h2]
    simp
  · rw [h1]
    exact h2

/-- The chunk map after one insertion step keeps the ordering invariant. -/
theorem scan_insert_inv (ac : Chunk) (a : Nat) (chunks : List Chunk)
    (hfst : ac.address_first = a) (hw : WFChunk ac) (hinv : ChunksInv chunks) :
    ChunksInv (mapInsert (List.foldl Chunk.merge_in ac (scanOverl ac a chunks))
      (scanKept ac a chunks)).2 := by
  obtain ⟨h1, h2, h3, h4⟩ := scan_facts ac a chunks hfst hw hinv
  constructor
  · exact mapInsert_pairwise _ _ h1 h2 h3 h4
  · intro c hc
    rcases mem_mapInsert _ _ c hc with rfl | hc2
    · exact h1
    · exact h2 c hc2

/-- The chunk map after one insertion step holds, as a multiset, the new
access node followed by everything it held before. -/
theorem scan_insert_perm (ac : Chunk) (a : Nat) (chunks : List Chunk)
    (hfst : ac.address_first = a) (hw : WFChunk ac) (hinv : ChunksInv chunks) :
    List.Perm
      (((mapInsert (List.foldl Chunk.merge_in ac (scanOverl ac a chunks))
          (scanKept ac a chunks)).2.map Chunk.accesses).flatten)
      (ac.accesses ++ (chunks.map Chunk.accesses).flatten) := by
  obtain ⟨h1, h2, _, h4⟩ := scan_facts ac a chunks hfst hw hinv
  have hperm := mapInsert_perm _ _ h1 h2 h4
  refine ((hperm.map Chunk.accesses).flatten).trans ?_
  rw [List.map_cons, List.flatten_cons, foldl_merge_accesses, List.append_assoc]
  refine List.Perm.append_left ac.accesses ?_
  have hchunks_eq :
      ((splitLastCheck ac (splitAtAddr a chunks).1).1 ++
        (splitLastCheck ac (splitAtAddr a chunks).1).2) ++
      ((takeOverlapping ac (splitAtAddr a chunks).2).1 ++
        (takeOverlapping ac (splitAtAddr a chunks).2).2) = chunks := by
    rw [splitLastCheck_append, takeOverlapping_append, splitAtAddr_append]
  conv_rhs => rw [← hchunks_eq]
  unfold scanOverl scanKept
  simp only [List.map_append, List.flatten_append, List.append_assoc]
  refine List.Perm.trans
    (List.Perm.append_left _ (List.perm_append_comm_assoc _ _ _)) ?_
  exact List.perm_append_comm_assoc _ _ _

/-- The builder-level invariant: the chunk map of the slice under
construction is address-ordered, pairwise disjoint and well formed. -/
def CInv (b : SliceBuilder) : Prop := ChunksInv b.slice.access_chunks

theorem afterCount_CInv (b : SliceBuilder) (h : CInv b) : CInv b.afterCount := by
  unfold CInv
  rw [afterCount_slice]
  exact h

theorem setFirstIfEmpty_CInv (b : SliceBuilder) (t : Nat) (h : CInv b) :
    CInv (b.setFirstIfEmpty t) := by
  unfold CInv
  rw [setFirstIfEmpty_chunks]
  exact h

/-- Every insert call preserves the chunk-map invariant. -/
theorem insert_CInv (b : SliceBuilder) (t a s : Nat) (hg : GoodInput (t, a, s))
    (h : CInv b) : CInv (b.insert t a s).2 := by
  unfold SliceBuilder.insert
  split
  · exact h
  · split
    · exact h
    · split
      · exact h
      · split
        · exact afterCount_CInv b h
        · split
          · exact afterCount_CInv b h
          · split
            · exact afterCount_CInv b h
            · unfold SliceBuilder.insertBody
              have hac : CInv b.afterCount := afterCount_CInv b h
              split
              · split
                · exact setFirstIfEmpty_CInv _ _ hac
                · show ChunksInv (mapInsert (List.foldl Chunk.merge_in
                      (Chunk.mk1 b.afterCount.next_id t a s)
                      (scanOverl (Chunk.mk1 b.afterCount.next_id t a s) a
                        b.afterCount.slice.access_chunks))
                      (scanKept (Chunk.mk1 b.afterCount.next_id t a s) a
                        b.afterCount.slice.access_chunks)).2
                  exact scan_insert_inv _ _ _ (mk1_first _ _ _ _) (mk1_WF _ _ _ _ hg) hac
              · show ChunksInv (mapInsert (List.foldl Chunk.merge_in
                    (Chunk.mk1 b.afterCount.next_id t a s)
                    (scanOverl (Chunk.mk1 b.afterCount.next_id t a s) a
                      b.afterCount.slice.access_chunks))
                    (scanKept (Chunk.mk1 b.afterCount.next_id t a s) a
                      b.afterCount.slice.access_chunks)).2
                exact scan_insert_inv _ _ _ (mk1_first _ _ _ _) (mk1_WF _ _ _ _ hg) hac

theorem runInserts_CInv : ∀ (ins : List (Nat × Nat × Nat)) (b : SliceBuilder),
    (∀ i ∈ ins, GoodInput i) → CInv b → CInv (runInserts ins b).1 := by
  intro ins
  induction ins with
  | nil => intro b _ h; exact h
  | cons i rest ih =>
    intro b hg h
    rcases i with ⟨t, a, s⟩
    have h2 := ih (b.insert t a s).2
      (fun j hj => hg j (List.mem_cons_of_mem _ hj))
      (insert_CInv b t a s (hg _ (List.mem_cons_self _ _)) h)
    unfold runInserts
    split <;> exact h2

/-- Every chunk of the merge pass result takes its address_first from one of
the incoming chunks. -/
theorem mergePass_first_mem (lim : Option Nat) :
    ∀ (l : List Chunk) (c d : Chunk), d ∈ mergePassAux lim c l →
      ∃ e ∈ c :: l, d.address_first = e.address_first := by
  intro l
  induction l with
  | nil =>
    intro c d hd
    rcases List.mem_singleton.mp hd with rfl
    exact ⟨d, List.mem_cons_self _ _, rfl⟩
  | cons n rest ih =>
    intro c d hd
    unfold mergePassAux at hd
    split at hd
    · rcases ih (c.merge_in n) d hd with ⟨e, he, heq⟩
      rcases List.mem_cons.mp he with rfl | he2
      · rcases le_total c.address_first n.address_first with h2 | h2
        · refine ⟨c, List.mem_cons_self _ _, ?_⟩
          rw [heq]
          show min c.address_first n.address_first = _
          exact min_eq_left h2
        · refine ⟨n, List.mem_cons_of_mem _ (List.mem_cons_self _ _), ?_⟩
          rw [heq]
          show min c.address_first n.address_first = _
          exact min_eq_right h2
      · exact ⟨e, List.mem_cons_of_mem _ (List.mem_cons_of_mem _ he2), heq⟩
    · rcases List.mem_cons.mp hd with rfl | hd2
      · exact ⟨d, List.mem_cons_self _ _, rfl⟩
      · rcases ih n d hd2 with ⟨e, he, heq⟩
        exact ⟨e, List.mem_cons_of_mem _ he, heq⟩

/-- The contiguous merge pass of build preserves ordering, disjointness and
well-formedness of the chunk list. -/
theorem mergePass_inv (lim : Option Nat) :
    ∀ (l : List Chunk) (c : Chunk), WFChunk c → (∀ n ∈ l, WFChunk n) →
      List.Pairwise ChunkOrd (c :: l) →
      List.Pairwise ChunkOrd (mergePassAux lim c l) ∧
      ∀ d ∈ mergePassAux lim c l, WFChunk d := by
  intro l
  induction l with
  | nil =>
    intro c hc _ _
    refine ⟨List.pairwise_singleton _ _, ?_⟩
    intro d hd
    rcases List.mem_singleton.mp hd with rfl
    exact hc
  | cons n rest ih =>
    intro c hc hws hp
    obtain ⟨hrel, hp2⟩ := List.pairwise_cons.mp hp
    have hwn : WFChunk n := hws n (List.mem_cons_self _ _)
    unfold mergePassAux
    split
    · have hcn : ChunkOrd c n := hrel n (List.mem_cons_self _ _)
      have hwm : WFChunk (c.merge_in n) := by
        constructor
        · exact le_trans (min_le_left _ _) (le_trans hc.1 (le_max_left _ _))
        · show max c.address_last n.address_last + 1 < U64
          rcases max_choice c.address_last n.address_last with h2 | h2
          · rw [h2]
            exact hc.2
          · rw [h2]
            exact hwn.2
      have hmrel : ∀ d ∈ rest, ChunkOrd (c.merge_in n) d := by
        intro d hd
        have h1 : ChunkOrd n d := (List.pairwise_cons.mp hp2).1 d hd
        have h2 : ChunkOrd c d := hrel d (List.mem_cons_of_mem _ hd)
        show max c.address_last n.address_last < d.address_first
        exact max_lt h2 h1
      exact ih (c.merge_in n) hwm (fun x hx => hws x (List.mem_cons_of_mem _ hx))
        (List.pairwise_cons.mpr ⟨hmrel, (List.pairwise_cons.mp hp2).2⟩)
    · obtain ⟨hprec, hwrec⟩ := ih n hwn (fun x hx => hws x (List.mem_cons_of_mem _ hx)) hp2
      refine ⟨List.pairwise_cons.mpr ⟨?_, hprec⟩, ?_⟩
      · intro d hd
        rcases mergePass_first_mem lim rest n d hd with ⟨e, he, heq⟩
        have h2 : ChunkOrd c e := hrel e he
        unfold ChunkOrd at h2 ⊢
        rw [heq]
        exact h2
      · intro d hd
        rcases List.mem_cons.mp hd with rfl | hd2
        · exact hc
        · exact hwrec d hd2

/-- The merge pass concatenates access lists without loss or reordering. -/
theorem mergePass_flatten (lim : Option Nat) :
    ∀ (l : List Chunk) (c : Chunk),
      ((mergePassAux lim c l).map Chunk.accesses).flatten =
        c.accesses ++ (l.map Chunk.accesses).flatten := by
  intro l
  induction l with
  | nil => intro c; simp [mergePassAux]
  | cons n rest ih =>
    intro c
    unfold mergePassAux
    split
    · rw [ih (c.merge_in n)]
      show c.accesses ++ n.accesses ++ _ = _
      simp [List.append_assoc]
    · simp only [List.map_cons, List.flatten_cons, ih n]

/-- All access nodes stored across the chunks of a list, head to tail. -/
def sliceAccesses (l : List Chunk) : List ChunkAccess :=
  (l.map Chunk.accesses).flatten

/-- One insert either leaves the chunk map untouched (refusal or throw) or
returns a handle and extends the stored access multiset by exactly it. -/
theorem insert_joinAcc (b : SliceBuilder) (t a s : Nat) (hg : GoodInput (t, a, s))
    (hinv : CInv b) :
    ((∀ acc, (b.insert t a s).1 ≠ InsertOutcome.inserted acc) ∧
      (b.insert t a s).2.slice.access_chunks = b.slice.access_chunks) ∨
    (∃ acc, (b.insert t a s).1 = InsertOutcome.inserted acc ∧
      List.Perm (sliceAccesses (b.insert t a s).2.slice.access_chunks)
        (acc :: sliceAccesses b.slice.access_chunks)) := by
  unfold SliceBuilder.insert
  split
  · exact Or.inl ⟨fun acc h => InsertOutcome.noConfusion h, rfl⟩
  · split
    · exact Or.inl ⟨fun acc h => InsertOutcome.noConfusion h, rfl⟩
    · split
      · exact Or.inl ⟨fun acc h => InsertOutcome.noConfusion h, rfl⟩
      · split
        · exact Or.inl ⟨fun acc h => InsertOutcome.noConfusion h, by rw [afterCount_slice]⟩
        · split
          · exact Or.inl ⟨fun acc h => InsertOutcome.noConfusion h, by rw [afterCount_slice]⟩
          · split
            · exact Or.inl ⟨fun acc h => InsertOutcome.noConfusion h, by rw [afterCount_slice]⟩
            · unfold SliceBuilder.insertBody
              have hac : CInv b.afterCount := afterCount_CInv b hinv
              split
              · split
                · exact Or.inl ⟨fun acc h => InsertOutcome.noConfusion h,
                    by rw [setFirstIfEmpty_chunks, afterCount_slice]⟩
                · refine Or.inr ⟨⟨b.afterCount.next_id, t, a, s % U32⟩, rfl, ?_⟩
                  show List.Perm (sliceAccesses (mapInsert (List.foldl Chunk.merge_in
                      (Chunk.mk1 b.afterCount.next_id t a s)
                      (scanOverl (Chunk.mk1 b.afterCount.next_id t a s) a
                        b.afterCount.slice.access_chunks))
                      (scanKept (Chunk.mk1 b.afterCount.next_id t a s) a
                        b.afterCount.slice.access_chunks)).2)
                    (⟨b.afterCount.next_id, t, a, s % U32⟩ ::
                      sliceAccesses b.slice.access_chunks)
                  have hperm := scan_insert_perm (Chunk.mk1 b.afterCount.next_id t a s) a
                    b.afterCount.slice.access_chunks (mk1_first _ _ _ _)
                    (mk1_WF _ _ _ _ hg) hac
                  unfold sliceAccesses
                  refine hperm.trans ?_
                  rw [mk1_accesses, afterCount_slice]
                  exact List.Perm.refl _
              · refine Or.inr ⟨⟨b.afterCount.next_id, t, a, s % U32⟩, rfl, ?_⟩
                show List.Perm (sliceAccesses (mapInsert (List.foldl Chunk.merge_in
                    (Chunk.mk1 b.afterCount.next_id t a s)
                    (scanOverl (Chunk.mk1 b.afterCount.next_id t a s) a
                      b.afterCount.slice.access_chunks))
                    (scanKept (Chunk.mk1 b.afterCount.next_id t a s) a
                      b.afterCount.slice.access_chunks)).2)
                  (⟨b.afterCount.next_id, t, a, s % U32⟩ ::
                    sliceAccesses b.slice.access_chunks)
                have hperm := scan_insert_perm (Chunk.mk1 b.afterCount.next_id t a s) a
                  b.afterCount.slice.access_chunks (mk1_first _ _ _ _)
                  (mk1_WF _ _ _ _ hg) hac
                unfold sliceAccesses
                refine hperm.trans ?_
                rw [mk1_accesses, afterCount_slice]
                exact List.Perm.refl _

/-- Across a run of inserts, the access nodes stored in the chunk map are
exactly the returned handles plus whatever was there initially. -/
theorem runInserts_perm : ∀ (ins : List (Nat × Nat × Nat)) (b : SliceBuilder),
    (∀ i ∈ ins, GoodInput i) → CInv b →
    List.Perm (sliceAccesses (runInserts ins b).1.slice.access_chunks)
      ((runInserts ins b).2 ++ sliceAccesses b.slice.access_chunks) := by
  intro ins
  induction ins with
  | nil =>
    intro b _ _
    exact List.Perm.refl _
  | cons i rest ih =>
    intro b hg hinv
    rcases i with ⟨t, a, s⟩
    have hgi : GoodInput (t, a, s) := hg _ (List.mem_cons_self _ _)
    have ihh := ih (b.insert t a s).2 (fun j hj => hg j (List.mem_cons_of_mem _ hj))
      (insert_CInv b t a s hgi hinv)
    unfold runInserts
    rcases insert_joinAcc b t a s hgi hinv with ⟨hne, hch⟩ | ⟨acc, hacc, hperm⟩
    · split
      · rename_i acc2 heq
        exact absurd heq (hne acc2)
      · rw [← hch]
        exact ihh
    · split
      · rename_i acc2 heq
        have hacc2 : acc2 = acc := by
          rw [heq] at hacc
          exact (InsertOutcome.inserted.injEq _ _).mp hacc
        subst hacc2
        exact ihh.trans ((List.Perm.append_left _ hperm).trans List.perm_middle)
      · rename_i hne2
        exact absurd hacc (hne2 acc)

/-- C1, amended.  For every sequence of insert calls on a builder with any
limit configuration, provided every call has 0 < size < 2^32 and
address + size < 2^64 (so no inserted range ends at u64::MAX and the u32
narrowing of the Chunk constructor is the identity), any two distinct
chunks of the chunk map are disjoint - a.address_last < b.address_first or
b.address_last < a.address_first - at every intermediate point (the
statement quantifies over every prefix of calls) and in the built slice
after the contiguous merge pass. -/
theorem c1_amended (ins : List (Nat × Nat × Nat)) (tc ov tl al : Option Nat)
    (hg : ∀ i ∈ ins, GoodInput i) :
    List.Pairwise ChunkDisjoint
      (runInserts ins (SliceBuilder.init tc ov tl al)).1.slice.access_chunks ∧
    List.Pairwise ChunkDisjoint
      ((runInserts ins (SliceBuilder.init tc ov tl al)).1.build).access_chunks := by
  have hinv : CInv (runInserts ins (SliceBuilder.init tc ov tl al)).1 :=
    runInserts_CInv ins _ hg
      ⟨List.Pairwise.nil, fun c hc => absurd hc (List.not_mem_nil c)⟩
  constructor
  · exact hinv.1.imp (fun h => Or.inl h)
  · unfold SliceBuilder.build
    rcases hmatch : (runInserts ins (SliceBuilder.init tc ov tl al)).1.slice.access_chunks
      with _ | ⟨c, rest⟩
    · simp only [hmatch]
      exact List.Pairwise.nil
    · simp only [hmatch]
      unfold CInv at hinv
      rw [hmatch] at hinv
      obtain ⟨hp, hw⟩ := hinv
      have hm := mergePass_inv
        (runInserts ins (SliceBuilder.init tc ov tl al)).1.chunk_size_touch_limit rest c
        (hw c (List.mem_cons_self _ _))
        (fun n hn => hw n (List.mem_cons_of_mem _ hn)) hp
      exact hm.1.imp (fun h => Or.inl h)

/-- Witness for c1_amended at a concrete three-insert run with merges. -/
theorem c1_amended_witness :
    (∀ i ∈ [((1 : Nat), (10 : Nat), (10 : Nat)), (2, 8, 10), (5, 30, 5)], GoodInput i) ∧
    (List.Pairwise ChunkDisjoint
      (runInserts [(1, 10, 10), (2, 8, 10), (5, 30, 5)]
        (SliceBuilder.init none none none none)).1.slice.access_chunks ∧
    List.Pairwise ChunkDisjoint
      ((runInserts [(1, 10, 10), (2, 8, 10), (5, 30, 5)]
        (SliceBuilder.init none none none none)).1.build).access_chunks) :=
  ⟨by decide,
   c1_amended [(1, 10, 10), (2, 8, 10), (5, 30, 5)] none none none none (by decide)⟩

/-- C2, amended.  Provided every insert call has 0 < size < 2^32 and
address + size < 2^64, traversing the access lists of the built slice
yields, as a multiset, exactly the handles returned by the successful
inserts (every inserted access appears exactly once); the traversal order,
however, is not insertion order, as the counterexample shows: an overlap
merge places the new access before the accesses of the chunks it absorbs.
The size proviso is necessary: for an insert whose range ends at u64::MAX,
overlaps cannot see the resulting chunk (its address_last + 1 wraps to 0),
so a later insert at the same address collides on the map key and its
access is silently dropped by std::map::insert although a handle was
returned. -/
theorem c2_amended (ins : List (Nat × Nat × Nat)) (tc ov tl al : Option Nat)
    (hg : ∀ i ∈ ins, GoodInput i) :
    List.Perm
      (sliceAccesses ((runInserts ins (SliceBuilder.init tc ov tl al)).1.build).access_chunks)
      (runInserts ins (SliceBuilder.init tc ov tl al)).2 := by
  have h0 := runInserts_perm ins (SliceBuilder.init tc ov tl al) hg
    ⟨List.Pairwise.nil, fun c hc => absurd hc (List.not_mem_nil c)⟩
  have hb : sliceAccesses
      ((runInserts ins (SliceBuilder.init tc ov tl al)).1.build).access_chunks =
      sliceAccesses (runInserts ins (SliceBuilder.init tc ov tl al)).1.slice.access_chunks := by
    unfold SliceBuilder.build sliceAccesses
    rcases hmatch : (runInserts ins (SliceBuilder.init tc ov tl al)).1.slice.access_chunks
      with _ | ⟨c, rest⟩
    · simp only [hmatch]
    · simp only [hmatch]
      exact mergePass_flatten _ rest c
  rw [hb]
  have h1 : (runInserts ins (SliceBuilder.init tc ov tl al)).2 ++
      sliceAccesses (SliceBuilder.init tc ov tl al).slice.access_chunks =
      (runInserts ins (SliceBuilder.init tc ov tl al)).2 := by
    show _ ++ ([] : List ChunkAccess) = _
    exact List.append_nil _
  rw [h1] at h0
  exact h0

/-- Witness for c2_amended at a concrete run with an overlap merge. -/
theorem c2_amended_witness :
    (∀ i ∈ [((0 : Nat), (0 : Nat), (4 : Nat)), (1, 2, 4), (2, 100, 1)], GoodInput i) ∧
    List.Perm
      (sliceAccesses ((runInserts [(0, 0, 4), (1, 2, 4), (2, 100, 1)]
        (SliceBuilder.init none none none none)).1.build).access_chunks)
      (runInserts [(0, 0, 4), (1, 2, 4), (2, 100, 1)]
        (SliceBuilder.init none none none none)).2 :=
  ⟨by decide,
   c2_amended [(0, 0, 4), (1, 2, 4), (2, 100, 1)] none none none none (by decide)⟩

/-- The size proviso of c2_amended is necessary: inserting (0, u64::MAX - 2,
size 3) and then (0, u64::MAX - 2, size 2) returns two handles, yet the
chunk map stores a single access - the first chunk ends at u64::MAX, so
overlaps misses it and the second chunk is dropped on the equal map key. -/
theorem c2_bound_necessary :
    (runInserts [(0, U64 - 3, 3), (0, U64 - 3, 2)] noLimitBuilder).2.length = 2 ∧
    (sliceAccesses
      (runInserts [(0, U64 - 3, 3), (0, U64 - 3, 2)]
        noLimitBuilder).1.slice.access_chunks).length = 1 := by
  constructor <;> decide

end SliceInvariant

end MemHist
